import Mathlib

/-!
Shallow embedding of the `mathexpr` arithmetic-expression pipeline
(tokenizer, precedence-climbing parser, evaluator) together with proofs
about its specified behaviour.

Modelling conventions:
* Rust `f64` values are modelled by `ℚ`.  Every numeric literal the
  tokenizer can produce is a finite decimal, hence exactly representable;
  the claims proved below only exercise arithmetic that is exact in
  `f64`, so the rational model agrees with the code on those inputs.
* Rust `i32` is modelled by `Int` together with an explicit range check
  `-2^31 ≤ n < 2^31` in the integer-parsing function.
* Rust strings are modelled by `List Char` for the scanned input and by
  `String` for error payloads.
* `char::is_whitespace` is modelled by `Char.isWhitespace`; the two
  agree on every ASCII character, and all inputs of interest are ASCII.
-/

namespace Mathexpr

/-- Binary operators, from `src/token/mod.rs` (`enum Operator`). -/
inductive Operator where
  | add
  | subtract
  | multiply
  | divide
  | power
  deriving DecidableEq, Repr

/-- Operator precedence, from `Operator::precedence` in `src/token/mod.rs`. -/
def Operator.precedence : Operator → Nat
  | .add | .subtract => 1
  | .multiply | .divide => 2
  | .power => 3

/-- Operator display symbol, from `Operator::symbol` in `src/token/mod.rs`. -/
def Operator.symbol : Operator → Char
  | .add => '+'
  | .subtract => '-'
  | .multiply => '*'
  | .divide => '/'
  | .power => '^'

/-- Lexical tokens, from `src/token/mod.rs` (`enum Token`). -/
inductive Token where
  | number (n : ℚ)
  | operator (op : Operator)
  | lparen
  | rparen
  | scientific (base : ℚ) (exponent : Int)
  deriving DecidableEq, Repr

/-- Expression AST, from `src/expr.rs` (`enum Expr`). -/
inductive Expr where
  | literal (v : ℚ)
  | binOp (op : Operator) (lhs rhs : Expr)
  | unaryMinus (e : Expr)
  | scientific (base : ℚ) (exponent : Int)
  deriving DecidableEq, Repr

/-- Error type, from `src/error.rs` (`enum MathError`). -/
inductive MathError where
  | unexpectedToken (t : Token)
  | unmatchedParenthesis
  | invalidNumber (s : String)
  | divisionByZero
  | invalidExpression (s : String)
  deriving DecidableEq, Repr

deriving instance DecidableEq for Except

/-- The characters treated as operator/parenthesis terminators by the
number scanner (`"+-*/^()".contains(ch)` in `tokenize_number`). -/
def isOpParen (c : Char) : Bool :=
  c = '+' || c = '-' || c = '*' || c = '/' || c = '^' || c = '(' || c = ')'

/-- Numeric value of a list of decimal digit characters, most significant
first (the value computed by Rust's integer/float parsing on a digit
string). -/
def digitsToNat : List Char → Nat :=
  List.foldl (fun acc c => 10 * acc + (c.toNat - '0'.toNat)) 0

/-- Model of Rust `str::parse::<f64>` restricted to the strings the
tokenizer can actually hand it: strings made of decimal digits and at
most one `'.'`.  Such a string parses successfully iff it contains at
least one digit, and its value is the usual decimal value (exact in the
rational model). -/
def parseF64 (s : List Char) : Option ℚ :=
  if s.all (fun c => c.isDigit || c = '.') && s.count '.' ≤ 1 && s.any Char.isDigit then
    let ip := s.takeWhile Char.isDigit
    let fp := (s.dropWhile Char.isDigit).drop 1
    some ((digitsToNat ip : ℚ) + (digitsToNat fp : ℚ) / (10 : ℚ) ^ fp.length)
  else
    none

/-- Model of Rust `str::parse::<i32>`: an optional sign followed by at
least one digit, with the resulting value required to lie in the `i32`
range. -/
def parseI32 (s : List Char) : Option Int :=
  let core : Bool → List Char → Option Int := fun neg ds =>
    if ds ≠ [] && ds.all Char.isDigit then
      let v : Int := (digitsToNat ds : Int)
      let v := if neg then -v else v
      if -(2 ^ 31) ≤ v ∧ v < 2 ^ 31 then some v else none
    else none
  match s with
  | '+' :: ds => core false ds
  | '-' :: ds => core true ds
  | ds => core false ds

/-- Model of Rust `str::split('e')`: split a character list at every
occurrence of `'e'` (lowercase only, exactly as the code does). -/
def splitOnE : List Char → List (List Char)
  | [] => [[]]
  | c :: cs =>
    if c = 'e' then
      [] :: splitOnE cs
    else
      match splitOnE cs with
      | [] => [[c]]
      | p :: ps => (c :: p) :: ps

/-- The scanning loop of `Tokenizer::tokenize_number`: accumulate digits,
at most one `'.'`, at most one `'e'`/`'E'` (with an optional sign
directly after it); stop at whitespace, an operator/parenthesis
character, or end of input; any other character is an error.  Returns
the accumulated text, the unconsumed remainder, and the
`is_scientific` flag. -/
def scanNumber (acc : List Char) (isSci hasDec : Bool) (cs : List Char) :
    Except MathError (List Char × List Char × Bool) :=
  match cs with
  | [] => .ok (acc, [], isSci)
  | c :: cs =>
    if c.isDigit then
      scanNumber (acc ++ [c]) isSci hasDec cs
    else if c = '.' then
      if hasDec then
        .error (.invalidExpression "Multiple decimal points in number")
      else
        scanNumber (acc ++ [c]) isSci true cs
    else if c = 'e' || c = 'E' then
      if isSci then
        .error (.invalidExpression "Multiple scientific notation in number")
      else
        match cs with
        | c2 :: cs2 =>
          if c2 = '+' || c2 = '-' then
            scanNumber (acc ++ [c, c2]) true hasDec cs2
          else
            scanNumber (acc ++ [c]) true hasDec (c2 :: cs2)
        | [] => scanNumber (acc ++ [c]) true hasDec []
    else if c.isWhitespace || isOpParen c then
      .ok (acc, c :: cs, isSci)
    else
      .error (.invalidNumber acc.asString)

/-- `Tokenizer::parse_scientific_notation`: split the accumulated text on
`'e'`, require exactly two parts, parse them as `f64` and `i32`. -/
def parseScientific (number : List Char) : Except MathError Token :=
  match splitOnE number with
  | [p0, p1] =>
    match parseF64 p0 with
    | none => .error (.invalidNumber number.asString)
    | some base =>
      match parseI32 p1 with
      | none => .error (.invalidNumber number.asString)
      | some exponent => .ok (.scientific base exponent)
  | _ => .error (.invalidNumber number.asString)

/-- `Tokenizer::tokenize_number`: scan the number text, then convert it
to a `Number` or `Scientific` token. -/
def tokenizeNumber (cs : List Char) : Except MathError (Token × List Char) :=
  match scanNumber [] false false cs with
  | .error e => .error e
  | .ok (number, rest, isSci) =>
    if number = [] then
      .error (.invalidExpression "Empty number")
    else if isSci then
      match parseScientific number with
      | .error e => .error e
      | .ok t => .ok (t, rest)
    else
      match parseF64 number with
      | some v => .ok (.number v, rest)
      | none => .error (.invalidNumber number.asString)

/-- `Tokenizer::skip_whitespace`. -/
def skipWs : List Char → List Char
  | [] => []
  | c :: cs => if c.isWhitespace then skipWs cs else c :: cs

/-- `Tokenizer::next_token`: skip whitespace, then produce one token (or
`none` at end of input). -/
def nextToken (cs : List Char) : Except MathError (Option (Token × List Char)) :=
  match skipWs cs with
  | [] => .ok none
  | c :: cs' =>
    if c.isDigit || c = '.' then
      match tokenizeNumber (c :: cs') with
      | .error e => .error e
      | .ok (t, rest) => .ok (some (t, rest))
    else if c = '+' then .ok (some (.operator .add, cs'))
    else if c = '-' then .ok (some (.operator .subtract, cs'))
    else if c = '*' then .ok (some (.operator .multiply, cs'))
    else if c = '/' then .ok (some (.operator .divide, cs'))
    else if c = '^' then .ok (some (.operator .power, cs'))
    else if c = '(' then .ok (some (.lparen, cs'))
    else if c = ')' then .ok (some (.rparen, cs'))
    else .error (.invalidExpression ("Unexpected character: " ++ String.mk [c]))

theorem skipWs_length (cs : List Char) : (skipWs cs).length ≤ cs.length := by
  induction cs with
  | nil => simp [skipWs]
  | cons c cs ih =>
    simp only [skipWs]
    split
    · exact Nat.le_succ_of_le ih
    · simp

theorem scanNumber_rest_length (acc : List Char) (isSci hasDec : Bool)
    (cs : List Char) :
    ∀ number rest flag,
      scanNumber acc isSci hasDec cs = .ok (number, rest, flag) →
      rest.length ≤ cs.length := by
  induction acc, isSci, hasDec, cs using scanNumber.induct with
  | case1 acc isSci hasDec =>
    intro number rest flag h
    rw [scanNumber.eq_def] at h
    simp only [Except.ok.injEq, Prod.mk.injEq] at h
    simp [← h.2.1]
  | case2 acc isSci hasDec c cs hdig ih =>
    intro number rest flag h
    rw [scanNumber.eq_def] at h
    simp only [hdig, if_pos] at h
    have := ih _ _ _ h
    simp only [List.length_cons]
    omega
  | case3 acc isSci cs h1 =>
    intro number rest flag h
    rw [scanNumber.eq_def] at h
    simp only [h1, if_true, if_false, reduceCtorEq, ite_self, Bool.false_eq_true,
      reduceIte] at h
  | case4 acc isSci hasDec cs h1 h2 ih =>
    intro number rest flag h
    rw [scanNumber.eq_def] at h
    simp only [h1, h2, Bool.false_eq_true, reduceIte, if_true, if_false] at h
    have := ih _ _ _ h
    simp only [List.length_cons]
    omega
  | case5 acc hasDec c cs h1 h2 h3 =>
    intro number rest flag h
    rw [scanNumber.eq_def] at h
    simp only [h1, h2, h3, Bool.false_eq_true, reduceIte, if_true, if_false,
      reduceCtorEq] at h
  | case6 acc isSci hasDec c h1 h2 h3 h4 c2 cs2 h5 ih =>
    intro number rest flag h
    rw [scanNumber.eq_def] at h
    simp only [h1, h2, h3, h4, h5, Bool.false_eq_true, reduceIte, if_true,
      if_false] at h
    have := ih _ _ _ h
    simp only [List.length_cons]
    omega
  | case7 acc isSci hasDec c h1 h2 h3 h4 c2 cs2 h5 ih =>
    intro number rest flag h
    rw [scanNumber.eq_def] at h
    simp only [h1, h2, h3, h4, h5, Bool.false_eq_true, reduceIte, if_true,
      if_false] at h
    have := ih _ _ _ h
    simp only [List.length_cons] at this ⊢
    omega
  | case8 acc isSci hasDec c h1 h2 h3 h4 ih =>
    intro number rest flag h
    rw [scanNumber.eq_def] at h
    simp only [h1, h2, h3, h4, Bool.false_eq_true, reduceIte, if_true,
      if_false] at h
    have := ih _ _ _ h
    simp only [List.length_cons]
    omega
  | case9 acc isSci hasDec c cs h1 h2 h3 h4 =>
    intro number rest flag h
    rw [scanNumber.eq_def] at h
    simp only [h1, h2, h3, h4, Bool.false_eq_true, reduceIte, if_true, if_false,
      Except.ok.injEq, Prod.mk.injEq] at h
    have : rest = c :: cs := h.2.1.symm
    simp [this]
  | case10 acc isSci hasDec c cs h1 h2 h3 h4 =>
    intro number rest flag h
    rw [scanNumber.eq_def] at h
    simp only [h1, h2, h3, h4, Bool.false_eq_true, reduceIte, if_true, if_false,
      reduceCtorEq] at h

theorem scanNumber_entry_rest_length (c : Char) (cs : List Char)
    (hc : c.isDigit = true ∨ c = '.') :
    ∀ number rest flag,
      scanNumber [] false false (c :: cs) = .ok (number, rest, flag) →
      rest.length ≤ cs.length := by
  intro number rest flag h
  rw [scanNumber.eq_def] at h
  rcases hc with hdig | hdot
  · simp only [hdig, if_pos, List.nil_append] at h
    exact scanNumber_rest_length _ _ _ _ _ _ _ h
  · subst hdot
    simp only [show ('.' : Char).isDigit = false from rfl, Bool.false_eq_true,
      reduceIte, List.nil_append] at h
    exact scanNumber_rest_length _ _ _ _ _ _ _ h

theorem tokenizeNumber_rest_length (c : Char) (cs : List Char)
    (hc : c.isDigit = true ∨ c = '.') (t : Token) (rest : List Char)
    (h : tokenizeNumber (c :: cs) = .ok (t, rest)) : rest.length ≤ cs.length := by
  unfold tokenizeNumber at h
  cases hs : scanNumber [] false false (c :: cs) with
  | error e => rw [hs] at h; exact absurd h (by simp)
  | ok res =>
    obtain ⟨number, rest0, flag⟩ := res
    rw [hs] at h
    have hb := scanNumber_entry_rest_length c cs hc number rest0 flag hs
    simp only at h
    split at h
    · exact absurd h (by simp)
    · split at h
      · split at h
        · exact absurd h (by simp)
        · obtain ⟨_, h2⟩ := Except.ok.inj h
          omega
      · split at h
        · obtain ⟨_, h2⟩ := Except.ok.inj h
          omega
        · exact absurd h (by simp)

theorem nextToken_consumes (cs : List Char) (t : Token) (rest : List Char)
    (h : nextToken cs = .ok (some (t, rest))) : rest.length < cs.length := by
  unfold nextToken at h
  cases hsw : skipWs cs with
  | nil => rw [hsw] at h; exact absurd h (by simp)
  | cons c cs' =>
    rw [hsw] at h
    have hlen : cs'.length + 1 ≤ cs.length := by
      have := skipWs_length cs
      rw [hsw] at this
      simpa using this
    simp only at h
    split at h
    · rename_i hc
      cases hn : tokenizeNumber (c :: cs') with
      | error e => rw [hn] at h; exact absurd h (by simp)
      | ok res =>
        obtain ⟨t0, rest0⟩ := res
        rw [hn] at h
        simp only [Except.ok.injEq, Option.some.injEq, Prod.mk.injEq] at h
        obtain ⟨-, h2⟩ := h
        subst h2
        have hc' : c.isDigit = true ∨ c = '.' := by
          rcases Bool.or_eq_true_iff.mp hc with h1 | h1
          · exact Or.inl h1
          · exact Or.inr (by simpa using h1)
        have := tokenizeNumber_rest_length c cs' hc' t0 rest0 hn
        omega
    · -- the single-character token branches all return the tail `cs'`
      split at h <;> try (obtain ⟨_, h2⟩ := Option.some.inj (Except.ok.inj h); omega)
      split at h <;> try (obtain ⟨_, h2⟩ := Option.some.inj (Except.ok.inj h); omega)
      split at h <;> try (obtain ⟨_, h2⟩ := Option.some.inj (Except.ok.inj h); omega)
      split at h <;> try (obtain ⟨_, h2⟩ := Option.some.inj (Except.ok.inj h); omega)
      split at h <;> try (obtain ⟨_, h2⟩ := Option.some.inj (Except.ok.inj h); omega)
      split at h <;> try (obtain ⟨_, h2⟩ := Option.some.inj (Except.ok.inj h); omega)
      split at h
      · obtain ⟨_, h2⟩ := Option.some.inj (Except.ok.inj h); omega
      · exact absurd h (by simp)

/-- Fuel-indexed version of `Tokenizer::tokenize_all` (the loop pushing
`next_token` results); `none` means the fuel ran out, which
`tokenize_total` below shows never happens for sufficient fuel. -/
def tokenizeAllF : Nat → List Char → Option (Except MathError (List Token))
  | 0, _ => none
  | fuel + 1, cs =>
    match nextToken cs with
    | .error e => some (.error e)
    | .ok none => some (.ok [])
    | .ok (some (t, rest)) =>
      match tokenizeAllF fuel rest with
      | none => none
      | some (.error e) => some (.error e)
      | some (.ok ts) => some (.ok (t :: ts))

theorem tokenizeAllF_mono (f1 : Nat) :
    ∀ f2 cs r, f1 ≤ f2 → tokenizeAllF f1 cs = some r → tokenizeAllF f2 cs = some r := by
  induction f1 with
  | zero => intro f2 cs r _ h; exact absurd h (by simp [tokenizeAllF])
  | succ f1 ih =>
    intro f2 cs r hle h
    obtain ⟨f2', rfl⟩ : ∃ f2', f2 = f2' + 1 := ⟨f2 - 1, by omega⟩
    rw [tokenizeAllF] at h ⊢
    cases hnt : nextToken cs with
    | error e => rw [hnt] at h; exact h
    | ok o =>
      cases o with
      | none => rw [hnt] at h; exact h
      | some p =>
        obtain ⟨t, rest⟩ := p
        rw [hnt] at h
        simp only at h ⊢
        cases hrec : tokenizeAllF f1 rest with
        | none => rw [hrec] at h; exact absurd h (by simp)
        | some r' =>
          rw [hrec] at h
          rw [ih f2' rest r' (by omega) hrec]
          exact h

theorem tokenizeAllF_total (fuel : Nat) :
    ∀ cs : List Char, cs.length < fuel → (tokenizeAllF fuel cs).isSome = true := by
  induction fuel with
  | zero => intro cs h; omega
  | succ fuel ih =>
    intro cs hlen
    rw [tokenizeAllF]
    cases hnt : nextToken cs with
    | error e => simp
    | ok o =>
      cases o with
      | none => simp
      | some p =>
        obtain ⟨t, rest⟩ := p
        have hlt := nextToken_consumes cs t rest hnt
        have := ih rest (by omega)
        simp only
        cases hrec : tokenizeAllF fuel rest with
        | none => rw [hrec] at this; exact absurd this (by simp)
        | some r => cases r <;> simp

/-- `Tokenizer::tokenize` / `tokenize_all`: tokenize the whole input.
The fuel `cs.length + 1` is provably sufficient (`tokenizeAllF_total`),
so the `Option.get` is well-defined. -/
def tokenize (cs : List Char) : Except MathError (List Token) :=
  (tokenizeAllF (cs.length + 1) cs).get (tokenizeAllF_total _ cs (by omega))

theorem tokenizeAllF_spec (fuel : Nat) (cs : List Char) (h : cs.length < fuel) :
    tokenizeAllF fuel cs = some (tokenize cs) := by
  have h1 : tokenizeAllF (cs.length + 1) cs = some (tokenize cs) := by
    unfold tokenize
    exact (Option.some_get _).symm
  exact tokenizeAllF_mono _ fuel cs _ (by omega) h1

/-- Unfolding equation for `tokenize`: one `next_token` step, then the
rest of the input. -/
theorem tokenize_eq (cs : List Char) :
    tokenize cs =
      match nextToken cs with
      | .error e => .error e
      | .ok none => .ok []
      | .ok (some (t, rest)) =>
        match tokenize rest with
        | .error e => .error e
        | .ok ts => .ok (t :: ts) := by
  have h := tokenizeAllF_spec (cs.length + 1) cs (by omega)
  rw [tokenizeAllF] at h
  cases hnt : nextToken cs with
  | error e => rw [hnt] at h; simp only; simpa using h.symm
  | ok o =>
    cases o with
    | none => rw [hnt] at h; simp only; simpa using h.symm
    | some p =>
      obtain ⟨t, rest⟩ := p
      rw [hnt] at h
      have hlt := nextToken_consumes cs t rest hnt
      have h2 := tokenizeAllF_spec cs.length rest hlt
      simp only at h ⊢
      rw [h2] at h
      cases hrest : tokenize rest with
      | error e => rw [hrest] at h; simpa using h.symm
      | ok ts => rw [hrest] at h; simpa using h.symm

example : tokenize "1.5e3".toList = .ok [.scientific (3/2) 3] := by with_unfolding_all rfl
example : tokenize "1.5E3".toList = .error (.invalidNumber "1.5E3") := by with_unfolding_all rfl
example : tokenize "1.2.3".toList =
    .error (.invalidExpression "Multiple decimal points in number") := by with_unfolding_all rfl

/-- Model of Rust `f64::powf` as used by the evaluator's `Power` case.
Exponentiation with an integer-valued exponent is exact and is all the
verified statements below exercise; a non-integer exponent falls outside
the rational model and is mapped to `0`. -/
def powf (a b : ℚ) : ℚ :=
  if b.den = 1 then a ^ b.num else 0

/-- `Evaluator::evaluate`, from `src/evaluator.rs`: post-order recursive
evaluation; `Scientific` means `base * 10^exponent`, `Divide` checks the
right operand against zero. -/
def evaluate : Expr → Except MathError ℚ
  | .literal value => .ok value
  | .scientific base exponent => .ok (base * (10 : ℚ) ^ exponent)
  | .unaryMinus e =>
    match evaluate e with
    | .error err => .error err
    | .ok value => .ok (-value)
  | .binOp op lhs rhs =>
    match evaluate lhs with
    | .error err => .error err
    | .ok left =>
      match evaluate rhs with
      | .error err => .error err
      | .ok right =>
        match op with
        | .add => .ok (left + right)
        | .subtract => .ok (left - right)
        | .multiply => .ok (left * right)
        | .divide =>
          if right = 0 then .error .divisionByZero else .ok (left / right)
        | .power => .ok (powf left right)

/-- Parser call descriptor: the three mutually recursive operations of
`Parser` (`parse_primary`, `parse_expression`, and the operator loop
inside `parse_expression`), packaged so the whole parser is one
fuel-indexed structural recursion. -/
inductive PReq where
  | prim (ts : List Token)
  | expr (minPrec : Nat) (ts : List Token)
  | loop (minPrec : Nat) (lhs : Expr) (ts : List Token)

/-- The token list a parser request operates on. -/
def PReq.tokens : PReq → List Token
  | .prim ts => ts
  | .expr _ ts => ts
  | .loop _ _ ts => ts

/-- Fuel-indexed interpreter for the parser of `src/parser.rs`.
`.prim` is `parse_primary`; `.expr` is `parse_expression` (parse a
primary, then enter the operator loop); `.loop` is the `while let`
loop of `parse_expression`.  `none` means the fuel ran out, which
`parserF_total` below shows never happens for sufficient fuel. -/
def parserF : Nat → PReq → Option (Except MathError (Expr × List Token))
  | 0, _ => none
  | fuel + 1, .prim ts =>
    match ts with
    | [] => some (.error (.invalidExpression "Unexpected end of input"))
    | .number n :: rest => some (.ok (.literal n, rest))
    | .scientific base exponent :: rest => some (.ok (.scientific base exponent, rest))
    | .operator .subtract :: rest =>
      match parserF fuel (.prim rest) with
      | none => none
      | some (.error e) => some (.error e)
      | some (.ok (e, rest')) => some (.ok (.unaryMinus e, rest'))
    | .lparen :: rest =>
      match parserF fuel (.expr 0 rest) with
      | none => none
      | some (.error e) => some (.error e)
      | some (.ok (e, rest')) =>
        match rest' with
        | .rparen :: rest'' => some (.ok (e, rest''))
        | _ => some (.error (.invalidExpression "Expected ')'"))
    | t :: _ => some (.error (.unexpectedToken t))
  | fuel + 1, .expr minPrec ts =>
    match parserF fuel (.prim ts) with
    | none => none
    | some (.error e) => some (.error e)
    | some (.ok (lhs, rest)) => parserF fuel (.loop minPrec lhs rest)
  | fuel + 1, .loop minPrec lhs ts =>
    match ts with
    | [] => some (.ok (lhs, []))
    | .operator op :: rest =>
      if op.precedence < minPrec then
        some (.ok (lhs, .operator op :: rest))
      else
        match parserF fuel (.expr (op.precedence + 1) rest) with
        | none => none
        | some (.error e) => some (.error e)
        | some (.ok (rhs, rest')) =>
          parserF fuel (.loop minPrec (.binOp op lhs rhs) rest')
    | .rparen :: rest => some (.ok (lhs, .rparen :: rest))
    | t :: _ => some (.error (.unexpectedToken t))

/-- Slack of a parser request: `parse_primary` and `parse_expression`
consume at least one token on success, the operator loop consumes zero
or more. -/
def PReq.slack : PReq → Nat
  | .loop _ _ _ => 0
  | _ => 1

/-- On success the parser returns a suffix of its input, shorter by at
least the request's slack. -/
theorem parserF_rest_length (fuel : Nat) :
    ∀ r e rest, parserF fuel r = some (.ok (e, rest)) →
      rest.length + r.slack ≤ r.tokens.length := by
  induction fuel with
  | zero => intro r e rest h; exact absurd h (by simp [parserF])
  | succ fuel ih =>
    intro r e rest h
    rcases r with ts | ⟨minPrec, ts⟩ | ⟨minPrec, lhs, ts⟩
    · -- parse_primary
      rcases ts with _ | ⟨t, rest0⟩
      · simp [parserF] at h
      · rcases t with n | op | _ | _ | ⟨b, ex⟩
        · simp only [parserF, Option.some.injEq, Except.ok.injEq,
            Prod.mk.injEq] at h
          obtain ⟨-, rfl⟩ := h
          simp [PReq.slack, PReq.tokens]
        · rcases op with _ | _ | _ | _ | _
          case subtract =>
            simp only [parserF] at h
            cases hrec : parserF fuel (.prim rest0) with
            | none => rw [hrec] at h; exact absurd h (by simp)
            | some res =>
              rw [hrec] at h
              cases res with
              | error err => exact absurd h (by simp)
              | ok p =>
                obtain ⟨e0, rest1⟩ := p
                simp only [Option.some.injEq, Except.ok.injEq,
                  Prod.mk.injEq] at h
                obtain ⟨-, rfl⟩ := h
                have := ih (.prim rest0) e0 rest1 hrec
                simp only [PReq.slack, PReq.tokens, List.length_cons] at this ⊢
                omega
          all_goals
            simp [parserF] at h
        · -- lparen
          simp only [parserF] at h
          cases hrec : parserF fuel (.expr 0 rest0) with
          | none => rw [hrec] at h; exact absurd h (by simp)
          | some res =>
            rw [hrec] at h
            cases res with
            | error err => exact absurd h (by simp)
            | ok p =>
              obtain ⟨e0, rest1⟩ := p
              have hlen := ih (.expr 0 rest0) e0 rest1 hrec
              simp only [PReq.slack, PReq.tokens, List.length_cons] at hlen ⊢
              rcases rest1 with _ | ⟨t1, rest2⟩
              · simp at h
              · rcases t1 with _ | _ | _ | _ | _
                case rparen =>
                  simp only [Option.some.injEq, Except.ok.injEq,
                    Prod.mk.injEq] at h
                  obtain ⟨-, rfl⟩ := h
                  simp only [List.length_cons] at hlen ⊢
                  omega
                all_goals simp at h
        · -- rparen in primary position
          simp [parserF] at h
        · -- scientific
          simp only [parserF, Option.some.injEq, Except.ok.injEq,
            Prod.mk.injEq] at h
          obtain ⟨-, rfl⟩ := h
          simp [PReq.slack, PReq.tokens]
    · -- parse_expression
      simp only [parserF] at h
      cases hrec : parserF fuel (.prim ts) with
      | none => rw [hrec] at h; exact absurd h (by simp)
      | some res =>
        rw [hrec] at h
        cases res with
        | error err => exact absurd h (by simp)
        | ok p =>
          obtain ⟨lhs, rest1⟩ := p
          simp only at h
          have h1 := ih (.prim ts) lhs rest1 hrec
          have h2 := ih (.loop minPrec lhs rest1) e rest h
          simp only [PReq.slack, PReq.tokens] at h1 h2 ⊢
          omega
    · -- operator loop
      rcases ts with _ | ⟨t, rest0⟩
      · simp only [parserF, Option.some.injEq, Except.ok.injEq,
          Prod.mk.injEq] at h
        obtain ⟨-, rfl⟩ := h
        simp [PReq.slack, PReq.tokens]
      · rcases t with n | op | _ | _ | ⟨b, ex⟩
        · simp [parserF] at h
        · simp only [parserF] at h
          by_cases hp : op.precedence < minPrec
          · rw [if_pos hp] at h
            simp only [Option.some.injEq, Except.ok.injEq, Prod.mk.injEq] at h
            obtain ⟨-, rfl⟩ := h
            simp [PReq.slack, PReq.tokens]
          · rw [if_neg hp] at h
            cases hrec : parserF fuel (.expr (op.precedence + 1) rest0) with
            | none => rw [hrec] at h; exact absurd h (by simp)
            | some res =>
              rw [hrec] at h
              cases res with
              | error err => exact absurd h (by simp)
              | ok p =>
                obtain ⟨rhs, rest1⟩ := p
                simp only at h
                have h1 := ih (.expr (op.precedence + 1) rest0) rhs rest1 hrec
                have h2 := ih (.loop minPrec (.binOp op lhs rhs) rest1) e rest h
                simp only [PReq.slack, PReq.tokens, List.length_cons] at h1 h2 ⊢
                omega
        · simp [parserF] at h
        · simp only [parserF, Option.some.injEq, Except.ok.injEq,
            Prod.mk.injEq] at h
          obtain ⟨-, rfl⟩ := h
          simp [PReq.slack, PReq.tokens]
        · simp [parserF] at h

theorem parserF_mono (f1 : Nat) :
    ∀ f2 r res, f1 ≤ f2 → parserF f1 r = some res → parserF f2 r = some res := by
  induction f1 with
  | zero => intro f2 r res _ h; exact absurd h (by simp [parserF])
  | succ f1 ih =>
    intro f2 r res hle h
    obtain ⟨f2', rfl⟩ : ∃ f2', f2 = f2' + 1 := ⟨f2 - 1, by omega⟩
    have hle' : f1 ≤ f2' := by omega
    rcases r with ts | ⟨minPrec, ts⟩ | ⟨minPrec, lhs, ts⟩
    · rcases ts with _ | ⟨t, rest0⟩
      · simpa [parserF] using h
      · rcases t with n | op | _ | _ | ⟨b, ex⟩
        · simpa [parserF] using h
        · rcases op with _ | _ | _ | _ | _
          case subtract =>
            rw [parserF] at h ⊢
            cases hrec : parserF f1 (.prim rest0) with
            | none => rw [hrec] at h; exact absurd h (by simp)
            | some res' =>
              rw [hrec] at h
              rw [ih f2' (.prim rest0) res' hle' hrec]
              exact h
          all_goals simpa [parserF] using h
        · rw [parserF] at h ⊢
          cases hrec : parserF f1 (.expr 0 rest0) with
          | none => rw [hrec] at h; exact absurd h (by simp)
          | some res' =>
            rw [hrec] at h
            rw [ih f2' (.expr 0 rest0) res' hle' hrec]
            exact h
        · simpa [parserF] using h
        · simpa [parserF] using h
    · rw [parserF] at h ⊢
      cases hrec : parserF f1 (.prim ts) with
      | none => rw [hrec] at h; exact absurd h (by simp)
      | some res' =>
        rw [hrec] at h
        rw [ih f2' (.prim ts) res' hle' hrec]
        cases res' with
        | error err => exact h
        | ok p =>
          obtain ⟨lhs, rest1⟩ := p
          simp only at h ⊢
          exact ih f2' (.loop minPrec lhs rest1) res hle' h
    · rcases ts with _ | ⟨t, rest0⟩
      · simpa [parserF] using h
      · rcases t with n | op | _ | _ | ⟨b, ex⟩
        · simpa [parserF] using h
        · rw [parserF] at h ⊢
          by_cases hp : op.precedence < minPrec
          · rw [if_pos hp] at h ⊢; exact h
          · rw [if_neg hp] at h ⊢
            cases hrec : parserF f1 (.expr (op.precedence + 1) rest0) with
            | none => rw [hrec] at h; exact absurd h (by simp)
            | some res' =>
              rw [hrec] at h
              rw [ih f2' (.expr (op.precedence + 1) rest0) res' hle' hrec]
              cases res' with
              | error err => exact h
              | ok p =>
                obtain ⟨rhs, rest1⟩ := p
                simp only at h ⊢
                exact ih f2' (.loop minPrec (.binOp op lhs rhs) rest1) res hle' h
        · simpa [parserF] using h
        · simpa [parserF] using h
        · simpa [parserF] using h

/-- Fuel bound sufficient for a parser request. -/
def PReq.bound : PReq → Nat
  | .prim ts => 2 * ts.length
  | .expr _ ts => 2 * ts.length + 1
  | .loop _ _ ts => 2 * ts.length + 1

/-- With fuel above the request's bound the parser never runs out of
fuel: every recursive call consumes at least one token or fails. -/
theorem parserF_total (fuel : Nat) :
    ∀ r, r.bound < fuel → (parserF fuel r).isSome = true := by
  induction fuel with
  | zero => intro r h; simp [PReq.bound] at h
  | succ fuel ih =>
    intro r hb
    rcases r with ts | ⟨minPrec, ts⟩ | ⟨minPrec, lhs, ts⟩
    · rcases ts with _ | ⟨t, rest0⟩
      · simp [parserF]
      · rcases t with n | op | _ | _ | ⟨b, ex⟩
        · simp [parserF]
        · rcases op with _ | _ | _ | _ | _
          case subtract =>
            simp only [PReq.bound, List.length_cons] at hb
            have hrec := ih (.prim rest0) (by simp [PReq.bound]; omega)
            rw [parserF]
            cases hrec' : parserF fuel (.prim rest0) with
            | none => rw [hrec'] at hrec; simp at hrec
            | some res' => cases res' with
              | error err => simp
              | ok p => obtain ⟨e0, rest1⟩ := p; simp
          all_goals simp [parserF]
        · simp only [PReq.bound, List.length_cons] at hb
          have hrec := ih (.expr 0 rest0) (by simp [PReq.bound]; omega)
          rw [parserF]
          cases hrec' : parserF fuel (.expr 0 rest0) with
          | none => rw [hrec'] at hrec; simp at hrec
          | some res' => cases res' with
            | error err => simp
            | ok p =>
              obtain ⟨e0, rest1⟩ := p
              rcases rest1 with _ | ⟨t1, rest2⟩
              · simp
              · rcases t1 with _ | _ | _ | _ | _ <;> simp
        · simp [parserF]
        · simp [parserF]
    · simp only [PReq.bound] at hb
      have hrec := ih (.prim ts) (by simp [PReq.bound]; omega)
      rw [parserF]
      cases hrec' : parserF fuel (.prim ts) with
      | none => rw [hrec'] at hrec; simp at hrec
      | some res' => cases res' with
        | error err => simp
        | ok p =>
          obtain ⟨lhs, rest1⟩ := p
          simp only
          have hlen := parserF_rest_length fuel (.prim ts) lhs rest1 hrec'
          simp only [PReq.slack, PReq.tokens] at hlen
          exact ih (.loop minPrec lhs rest1) (by simp [PReq.bound]; omega)
    · rcases ts with _ | ⟨t, rest0⟩
      · simp [parserF]
      · rcases t with n | op | _ | _ | ⟨b, ex⟩
        · simp [parserF]
        · simp only [PReq.bound, List.length_cons] at hb
          rw [parserF]
          by_cases hp : op.precedence < minPrec
          · rw [if_pos hp]; simp
          · rw [if_neg hp]
            have hrec := ih (.expr (op.precedence + 1) rest0)
              (by simp [PReq.bound]; omega)
            cases hrec' : parserF fuel (.expr (op.precedence + 1) rest0) with
            | none => rw [hrec'] at hrec; simp at hrec
            | some res' => cases res' with
              | error err => simp
              | ok p =>
                obtain ⟨rhs, rest1⟩ := p
                simp only
                have hlen := parserF_rest_length fuel
                  (.expr (op.precedence + 1) rest0) rhs rest1 hrec'
                simp only [PReq.slack, PReq.tokens] at hlen
                exact ih (.loop minPrec (.binOp op lhs rhs) rest1)
                  (by simp [PReq.bound]; omega)
        · simp [parserF]
        · simp [parserF]
        · simp [parserF]

/-- Run a parser request with provably sufficient fuel. -/
def runP (r : PReq) : Except MathError (Expr × List Token) :=
  (parserF (r.bound + 1) r).get (parserF_total _ r (by omega))

theorem parserF_spec (f : Nat) (r : PReq) (h : r.bound < f) :
    parserF f r = some (runP r) := by
  have h1 : parserF (r.bound + 1) r = some (runP r) := (Option.some_get _).symm
  exact parserF_mono _ f r _ (by omega) h1

/-- `Parser::parse_primary`. -/
def parsePrimary (ts : List Token) : Except MathError (Expr × List Token) :=
  runP (.prim ts)

/-- `Parser::parse_expression`. -/
def parseExpression (minPrec : Nat) (ts : List Token) :
    Except MathError (Expr × List Token) :=
  runP (.expr minPrec ts)

/-- The operator loop inside `Parser::parse_expression`, with the current
left-hand side made explicit. -/
def parseLoop (minPrec : Nat) (lhs : Expr) (ts : List Token) :
    Except MathError (Expr × List Token) :=
  runP (.loop minPrec lhs ts)

/-- `Parser::parse`: parse at minimum precedence `0` and drop the final
cursor (any tokens left over are ignored). -/
def parse (ts : List Token) : Except MathError Expr :=
  match parseExpression 0 ts with
  | .error e => .error e
  | .ok (e, _) => .ok e

/-- Unfolding equation for `parse_primary`. -/
theorem parsePrimary_eq (ts : List Token) :
    parsePrimary ts =
      match ts with
      | [] => .error (.invalidExpression "Unexpected end of input")
      | .number n :: rest => .ok (.literal n, rest)
      | .scientific base exponent :: rest => .ok (.scientific base exponent, rest)
      | .operator .subtract :: rest =>
        (match parsePrimary rest with
         | .error e => .error e
         | .ok (e, rest') => .ok (.unaryMinus e, rest'))
      | .lparen :: rest =>
        (match parseExpression 0 rest with
         | .error e => .error e
         | .ok (e, rest') =>
           match rest' with
           | .rparen :: rest'' => .ok (e, rest'')
           | _ => .error (.invalidExpression "Expected ')'"))
      | t :: _ => .error (.unexpectedToken t) := by
  have hspec : parserF (PReq.bound (.prim ts) + 1) (.prim ts) =
      some (parsePrimary ts) := (Option.some_get _).symm
  rw [parserF.eq_def] at hspec
  simp only at hspec
  rcases ts with _ | ⟨t, rest0⟩
  · simpa using hspec.symm
  · rcases t with n | op | _ | _ | ⟨b, ex⟩
    · simpa using hspec.symm
    · rcases op with _ | _ | _ | _ | _
      case subtract =>
        simp only at hspec
        have hsub : parserF (PReq.bound (.prim (Token.operator .subtract :: rest0)))
            (.prim rest0) = some (parsePrimary rest0) := by
          apply parserF_spec
          simp [PReq.bound]
        rw [hsub] at hspec
        simp only
        cases hrest : parsePrimary rest0 with
        | error e => rw [hrest] at hspec; simpa using hspec.symm
        | ok p =>
          obtain ⟨e0, rest1⟩ := p
          rw [hrest] at hspec
          simpa using hspec.symm
      all_goals simpa using hspec.symm
    · -- lparen
      simp only at hspec
      have hsub : parserF (PReq.bound (.prim (Token.lparen :: rest0)))
          (.expr 0 rest0) = some (parseExpression 0 rest0) := by
        apply parserF_spec
        simp [PReq.bound]
        omega
      rw [hsub] at hspec
      simp only
      cases hrest : parseExpression 0 rest0 with
      | error e => rw [hrest] at hspec; simpa using hspec.symm
      | ok p =>
        obtain ⟨e0, rest1⟩ := p
        rw [hrest] at hspec
        rcases rest1 with _ | ⟨t1, rest2⟩
        · simpa using hspec.symm
        · rcases t1 with _ | _ | _ | _ | _ <;> simpa using hspec.symm
    · simpa using hspec.symm
    · simpa using hspec.symm

/-- Unfolding equation for `parse_expression`: one primary, then the
operator loop. -/
theorem parseExpression_eq (minPrec : Nat) (ts : List Token) :
    parseExpression minPrec ts =
      match parsePrimary ts with
      | .error e => .error e
      | .ok (lhs, rest) => parseLoop minPrec lhs rest := by
  have hspec : parserF (PReq.bound (.expr minPrec ts) + 1) (.expr minPrec ts) =
      some (parseExpression minPrec ts) := (Option.some_get _).symm
  rw [parserF.eq_def] at hspec
  simp only at hspec
  have hsub : parserF (PReq.bound (.expr minPrec ts)) (.prim ts) =
      some (parsePrimary ts) := by
    apply parserF_spec
    simp [PReq.bound]
  rw [hsub] at hspec
  cases hrest : parsePrimary ts with
  | error e => rw [hrest] at hspec; simpa using hspec.symm
  | ok p =>
    obtain ⟨lhs, rest1⟩ := p
    rw [hrest] at hspec
    simp only at hspec ⊢
    have hlen : rest1.length < ts.length := by
      have h1 : parserF (PReq.bound (.prim ts) + 1) (.prim ts) =
          some (parsePrimary ts) := (Option.some_get _).symm
      rw [hrest] at h1
      have := parserF_rest_length _ (.prim ts) lhs rest1 h1
      simpa [PReq.slack, PReq.tokens] using this
    have hloop : parserF (PReq.bound (.expr minPrec ts))
        (.loop minPrec lhs rest1) = some (parseLoop minPrec lhs rest1) := by
      apply parserF_spec
      simp [PReq.bound]
      omega
    rw [hloop] at hspec
    simpa using hspec.symm

/-- Unfolding equation for the operator loop of `parse_expression`. -/
theorem parseLoop_eq (minPrec : Nat) (lhs : Expr) (ts : List Token) :
    parseLoop minPrec lhs ts =
      match ts with
      | [] => .ok (lhs, [])
      | .operator op :: rest =>
        if op.precedence < minPrec then
          .ok (lhs, .operator op :: rest)
        else
          (match parseExpression (op.precedence + 1) rest with
           | .error e => .error e
           | .ok (rhs, rest') => parseLoop minPrec (.binOp op lhs rhs) rest')
      | .rparen :: rest => .ok (lhs, .rparen :: rest)
      | t :: _ => .error (.unexpectedToken t) := by
  have hspec : parserF (PReq.bound (.loop minPrec lhs ts) + 1)
      (.loop minPrec lhs ts) = some (parseLoop minPrec lhs ts) :=
    (Option.some_get _).symm
  rw [parserF.eq_def] at hspec
  simp only at hspec
  rcases ts with _ | ⟨t, rest0⟩
  · simpa using hspec.symm
  · rcases t with n | op | _ | _ | ⟨b, ex⟩
    · simpa using hspec.symm
    · simp only at hspec ⊢
      by_cases hp : op.precedence < minPrec
      · rw [if_pos hp] at hspec ⊢
        simpa using hspec.symm
      · rw [if_neg hp] at hspec ⊢
        have hsub : parserF (PReq.bound (.loop minPrec lhs (Token.operator op :: rest0)))
            (.expr (op.precedence + 1) rest0) =
            some (parseExpression (op.precedence + 1) rest0) := by
          apply parserF_spec
          simp [PReq.bound]
        rw [hsub] at hspec
        cases hrest : parseExpression (op.precedence + 1) rest0 with
        | error e => rw [hrest] at hspec; simpa using hspec.symm
        | ok p =>
          obtain ⟨rhs, rest1⟩ := p
          rw [hrest] at hspec
          simp only at hspec ⊢
          have hlen : rest1.length < rest0.length := by
            have h1 : parserF (PReq.bound (.expr (op.precedence + 1) rest0) + 1)
                (.expr (op.precedence + 1) rest0) =
                some (parseExpression (op.precedence + 1) rest0) :=
              (Option.some_get _).symm
            rw [hrest] at h1
            have := parserF_rest_length _ (.expr (op.precedence + 1) rest0)
              rhs rest1 h1
            simpa [PReq.slack, PReq.tokens] using this
          have hloop : parserF (PReq.bound (.loop minPrec lhs (Token.operator op :: rest0)))
              (.loop minPrec (.binOp op lhs rhs) rest1) =
              some (parseLoop minPrec (.binOp op lhs rhs) rest1) := by
            apply parserF_spec
            simp [PReq.bound]
            omega
          rw [hloop] at hspec
          simpa using hspec.symm
    · simpa using hspec.symm
    · simpa using hspec.symm
    · simpa using hspec.symm

/-- The full pipeline on a token list already produced by the lexer:
parse, then evaluate (`src/main.rs` stages two and three). -/
def parseString (cs : List Char) : Except MathError Expr :=
  match tokenize cs with
  | .error e => .error e
  | .ok ts => parse ts

/-- The full pipeline: tokenize, parse, evaluate (`src/main.rs`). -/
def evalString (cs : List Char) : Except MathError ℚ :=
  match parseString cs with
  | .error e => .error e
  | .ok e => evaluate e

example : parse [Token.number 1, Token.rparen] = .ok (.literal 1) := by
  with_unfolding_all rfl
example : parseString "2^3^2".toList =
    .ok (.binOp .power (.binOp .power (.literal 2) (.literal 3)) (.literal 2)) := by
  with_unfolding_all rfl
example : evalString "2^3^2".toList = .ok 64 := by with_unfolding_all rfl
example : evalString "-2 ^ 3".toList = .ok (-8) := by with_unfolding_all rfl
example : evalString "-(2 + 3)".toList = .ok (-5) := by with_unfolding_all rfl
example : evalString "1 / 0".toList = .error .divisionByZero := by
  with_unfolding_all rfl
example : evalString "1 / (2 - 2)".toList = .error .divisionByZero := by
  with_unfolding_all rfl
example : parseString "(1".toList = .error (.invalidExpression "Expected ')'") := by
  with_unfolding_all rfl
example : evalString "1.5e3".toList = .ok 1500 := by with_unfolding_all rfl
example : evalString "2e-1".toList = .ok (1/5) := by with_unfolding_all rfl

/-- C1: the spec says a numeric text containing an `e` or `E` separator
with two well-formed parts tokenizes to `Scientific(base, exponent)`, so
`tokenize "1.5E3"` should succeed with `Scientific{base: 1.5, exponent: 3}`.
The code scans `E` as a scientific-notation marker but
`parse_scientific_notation` splits only on lowercase `'e'`, so the split
of `"1.5E3"` produces one part and tokenization fails with
`InvalidNumber("1.5E3")`; the lowercase form works as specified. -/
theorem c1_uppercase_scientific_rejected :
    tokenize "1.5e3".toList = .ok [.scientific (3 / 2) 3] ∧
    tokenize "1.5E3".toList = .error (.invalidNumber "1.5E3") ∧
    splitOnE "1.5E3".toList = ["1.5E3".toList] := by
  refine ⟨?_, ?_, ?_⟩ <;> with_unfolding_all rfl

/-- C2 counterexample: on `"1.2.3"` the tokenizer does not fail with an
`InvalidNumber`-class error with message "multiple decimal points"; it
fails with `InvalidExpression("Multiple decimal points in number")`. -/
theorem c2_counterexample :
    tokenize "1.2.3".toList =
      .error (.invalidExpression "Multiple decimal points in number") := by
  with_unfolding_all rfl

/-- C2 (amended): a second `.` encountered while scanning a number makes
tokenization fail with `InvalidExpression` carrying the message
"Multiple decimal points in number" (not `InvalidNumber`), as on
`"1.2.3"`. -/
theorem c2_multiple_decimal_points :
    (∀ (acc rest : List Char) (sci : Bool),
      scanNumber acc sci true ('.' :: rest) =
        .error (.invalidExpression "Multiple decimal points in number")) ∧
    tokenize "1.2.3".toList =
      .error (.invalidExpression "Multiple decimal points in number") := by
  refine ⟨?_, by with_unfolding_all rfl⟩
  intro acc rest sci
  rw [scanNumber.eq_def]
  simp

/-- C3: every binary operator is left-associative — a chain
`a op b op c` parses as `(a op b) op c` for each of the five operators —
and in particular the pipeline groups `"2^3^2"` as `(2^3)^2`,
evaluating to `64`, not `512`. -/
theorem c3_left_associative :
    (∀ (op : Operator) (a b c : ℚ),
      parse [.number a, .operator op, .number b, .operator op, .number c] =
        .ok (.binOp op (.binOp op (.literal a) (.literal b)) (.literal c))) ∧
    parseString "2^3^2".toList =
      .ok (.binOp .power (.binOp .power (.literal 2) (.literal 3)) (.literal 2)) ∧
    evalString "2^3^2".toList = .ok 64 := by
  refine ⟨?_, by with_unfolding_all rfl, by with_unfolding_all rfl⟩
  intro op a b c
  cases op <;> with_unfolding_all rfl

/-- C4: unary minus binds tighter than every binary operator and takes
only the immediately following primary: `-a op b` parses as
`(-a) op b` for each operator, `"-2 ^ 3"` evaluates to `-8`, and
`"-(2 + 3)"` evaluates to `-5`. -/
theorem c4_unary_minus_binds_tighter :
    (∀ (op : Operator) (a b : ℚ),
      parse [.operator .subtract, .number a, .operator op, .number b] =
        .ok (.binOp op (.unaryMinus (.literal a)) (.literal b))) ∧
    parseString "-2 ^ 3".toList =
      .ok (.binOp .power (.unaryMinus (.literal 2)) (.literal 3)) ∧
    evalString "-2 ^ 3".toList = .ok (-8) ∧
    evalString "-(2 + 3)".toList = .ok (-5) := by
  refine ⟨?_, by with_unfolding_all rfl, by with_unfolding_all rfl,
    by with_unfolding_all rfl⟩
  intro op a b
  cases op <;> with_unfolding_all rfl

/-- C5: for subexpressions evaluating to `a` and `b`, division fails
with `DivisionByZero` exactly when `b = 0` and returns `a / b`
otherwise; `"1 / 0"` and `"1 / (2 - 2)"` both fail that way. -/
theorem c5_division_by_zero :
    (∀ (l r : Expr) (a b : ℚ), evaluate l = .ok a → evaluate r = .ok b →
      ((evaluate (.binOp .divide l r) = .error .divisionByZero) ↔ b = 0) ∧
      (b ≠ 0 → evaluate (.binOp .divide l r) = .ok (a / b))) ∧
    evalString "1 / 0".toList = .error .divisionByZero ∧
    evalString "1 / (2 - 2)".toList = .error .divisionByZero := by
  refine ⟨?_, by with_unfolding_all rfl, by with_unfolding_all rfl⟩
  intro l r a b hl hr
  constructor
  · simp only [evaluate, hl, hr]
    by_cases hb : b = 0
    · simp [hb]
    · simp [hb]
  · intro hb
    simp [evaluate, hl, hr, hb]

/-- Witness for C5 at concrete inputs. -/
theorem c5_division_by_zero_witness :
    evaluate (.binOp .divide (.literal 1) (.literal 0)) = .error .divisionByZero ∧
    evaluate (.binOp .divide (.literal 1) (.literal 2)) = .ok (1 / 2) := by
  have h0 := (c5_division_by_zero.1 (.literal 1) (.literal 0) 1 0 rfl rfl).1
  have h2 := (c5_division_by_zero.1 (.literal 1) (.literal 2) 1 2 rfl rfl).2
  exact ⟨h0.mpr rfl, h2 (by norm_num)⟩

/-- C10: whenever `parse_expression(0)` succeeds on a prefix of the
tokens, the top-level `parse` succeeds with that expression, silently
ignoring every remaining token (in particular a dangling right
parenthesis). -/
theorem c10_trailing_tokens_ignored :
    ∀ (ts : List Token) (e : Expr) (rest : List Token),
      parseExpression 0 ts = .ok (e, rest) → parse ts = .ok e := by
  intro ts e rest h
  unfold parse
  rw [h]

/-- Witness for C10: `[Number(1.0), RParen]` parses to `Literal(1.0)`
even though the parenthesis is unmatched. -/
theorem c10_trailing_tokens_ignored_witness :
    parse [Token.number 1, Token.rparen] = .ok (.literal 1) :=
  c10_trailing_tokens_ignored [Token.number 1, Token.rparen] (.literal 1)
    [Token.rparen] (by with_unfolding_all rfl)

theorem parsePrimary_consumes (ts : List Token) (e : Expr) (rest : List Token)
    (h : parsePrimary ts = .ok (e, rest)) : rest.length < ts.length := by
  have h1 : parserF (PReq.bound (.prim ts) + 1) (.prim ts) =
      some (parsePrimary ts) := (Option.some_get _).symm
  rw [h] at h1
  have := parserF_rest_length _ (.prim ts) e rest h1
  simpa [PReq.slack, PReq.tokens] using this

theorem parseExpression_consumes (minPrec : Nat) (ts : List Token) (e : Expr)
    (rest : List Token) (h : parseExpression minPrec ts = .ok (e, rest)) :
    rest.length < ts.length := by
  have h1 : parserF (PReq.bound (.expr minPrec ts) + 1) (.expr minPrec ts) =
      some (parseExpression minPrec ts) := (Option.some_get _).symm
  rw [h] at h1
  have := parserF_rest_length _ (.expr minPrec ts) e rest h1
  simpa [PReq.slack, PReq.tokens] using this

theorem parseLoop_suffix (minPrec : Nat) (lhs : Expr) (ts : List Token)
    (e : Expr) (rest : List Token)
    (h : parseLoop minPrec lhs ts = .ok (e, rest)) : rest.length ≤ ts.length := by
  have h1 : parserF (PReq.bound (.loop minPrec lhs ts) + 1) (.loop minPrec lhs ts) =
      some (parseLoop minPrec lhs ts) := (Option.some_get _).symm
  rw [h] at h1
  have := parserF_rest_length _ (.loop minPrec lhs ts) e rest h1
  simpa [PReq.slack, PReq.tokens] using this

/-- C7: parsing terminates on every finite token sequence.  With fuel
exceeding twice the input length the fuel-indexed parser never runs
out (each recursive call consumes at least one token or fails), every
successful `parse_primary`/`parse_expression` call consumes at least
one token, and the total `parse` always returns an expression or an
error. -/
theorem c7_parse_terminates :
    (∀ (fuel : Nat) (ts : List Token), 2 * ts.length < fuel →
      (parserF fuel (.prim ts)).isSome = true) ∧
    (∀ (fuel minPrec : Nat) (ts : List Token), 2 * ts.length + 1 < fuel →
      (parserF fuel (.expr minPrec ts)).isSome = true) ∧
    (∀ (ts : List Token) (e : Expr) (rest : List Token),
      parsePrimary ts = .ok (e, rest) → rest.length < ts.length) ∧
    (∀ (minPrec : Nat) (ts : List Token) (e : Expr) (rest : List Token),
      parseExpression minPrec ts = .ok (e, rest) → rest.length < ts.length) ∧
    (∀ ts : List Token, (∃ e, parse ts = .ok e) ∨ (∃ err, parse ts = .error err)) := by
  refine ⟨?_, ?_, parsePrimary_consumes, parseExpression_consumes, ?_⟩
  · intro fuel ts h
    exact parserF_total fuel (.prim ts) (by simpa [PReq.bound] using h)
  · intro fuel minPrec ts h
    exact parserF_total fuel (.expr minPrec ts) (by simpa [PReq.bound] using h)
  · intro ts
    cases h : parse ts with
    | error err => exact Or.inr ⟨err, rfl⟩
    | ok e => exact Or.inl ⟨e, rfl⟩

/-- Witness for C7 at concrete inputs. -/
theorem c7_parse_terminates_witness :
    (parserF 1 (.prim ([] : List Token))).isSome = true ∧
    ([] : List Token).length < [Token.number 1].length := by
  refine ⟨c7_parse_terminates.1 1 [] (by simp), ?_⟩
  exact c7_parse_terminates.2.2.1 [Token.number 1] (.literal 1) []
    (by with_unfolding_all rfl)

/-- Every error the number-scanning loop can raise. -/
theorem scanNumber_error_shape (acc : List Char) (isSci hasDec : Bool)
    (cs : List Char) :
    ∀ e, scanNumber acc isSci hasDec cs = .error e →
      e = .invalidExpression "Multiple decimal points in number" ∨
      e = .invalidExpression "Multiple scientific notation in number" ∨
      ∃ s, e = .invalidNumber s := by
  induction acc, isSci, hasDec, cs using scanNumber.induct with
  | case1 acc isSci hasDec =>
    intro e h
    rw [scanNumber.eq_def] at h
    exact absurd h (by simp)
  | case2 acc isSci hasDec c cs hdig ih =>
    intro e h
    rw [scanNumber.eq_def] at h
    simp only [hdig, if_pos] at h
    exact ih _ h
  | case3 acc isSci cs h1 =>
    intro e h
    rw [scanNumber.eq_def] at h
    simp only [h1, Bool.false_eq_true, reduceIte, if_true, if_false,
      Except.error.injEq] at h
    exact Or.inl h.symm
  | case4 acc isSci hasDec cs h1 h2 ih =>
    intro e h
    rw [scanNumber.eq_def] at h
    simp only [h1, h2, Bool.false_eq_true, reduceIte, if_true, if_false] at h
    exact ih _ h
  | case5 acc hasDec c cs h1 h2 h3 =>
    intro e h
    rw [scanNumber.eq_def] at h
    simp only [h1, h2, h3, Bool.false_eq_true, reduceIte, if_true, if_false,
      Except.error.injEq] at h
    exact Or.inr (Or.inl h.symm)
  | case6 acc isSci hasDec c h1 h2 h3 h4 c2 cs2 h5 ih =>
    intro e h
    rw [scanNumber.eq_def] at h
    simp only [h1, h2, h3, h4, h5, Bool.false_eq_true, reduceIte, if_true,
      if_false] at h
    exact ih _ h
  | case7 acc isSci hasDec c h1 h2 h3 h4 c2 cs2 h5 ih =>
    intro e h
    rw [scanNumber.eq_def] at h
    simp only [h1, h2, h3, h4, h5, Bool.false_eq_true, reduceIte, if_true,
      if_false] at h
    exact ih _ h
  | case8 acc isSci hasDec c h1 h2 h3 h4 ih =>
    intro e h
    rw [scanNumber.eq_def] at h
    simp only [h1, h2, h3, h4, Bool.false_eq_true, reduceIte, if_true,
      if_false] at h
    exact ih _ h
  | case9 acc isSci hasDec c cs h1 h2 h3 h4 =>
    intro e h
    rw [scanNumber.eq_def] at h
    simp only [h1, h2, h3, h4, Bool.false_eq_true, reduceIte, if_true,
      if_false] at h
    exact absurd h (by simp)
  | case10 acc isSci hasDec c cs h1 h2 h3 h4 =>
    intro e h
    rw [scanNumber.eq_def] at h
    simp only [h1, h2, h3, h4, Bool.false_eq_true, reduceIte, if_true, if_false,
      Except.error.injEq] at h
    exact Or.inr (Or.inr ⟨_, h.symm⟩)

/-- On success the scanned number text extends the accumulator. -/
theorem scanNumber_acc_extends (acc : List Char) (isSci hasDec : Bool)
    (cs : List Char) :
    ∀ number rest flag,
      scanNumber acc isSci hasDec cs = .ok (number, rest, flag) →
      ∃ t, number = acc ++ t := by
  induction acc, isSci, hasDec, cs using scanNumber.induct with
  | case1 acc isSci hasDec =>
    intro number rest flag h
    rw [scanNumber.eq_def] at h
    simp only [Except.ok.injEq, Prod.mk.injEq] at h
    exact ⟨[], by simp [← h.1]⟩
  | case2 acc isSci hasDec c cs hdig ih =>
    intro number rest flag h
    rw [scanNumber.eq_def] at h
    simp only [hdig, if_pos] at h
    obtain ⟨t, ht⟩ := ih _ _ _ h
    exact ⟨c :: t, by simpa using ht⟩
  | case3 acc isSci cs h1 =>
    intro number rest flag h
    rw [scanNumber.eq_def] at h
    simp only [h1, Bool.false_eq_true, reduceIte, if_true, if_false,
      reduceCtorEq] at h
  | case4 acc isSci hasDec cs h1 h2 ih =>
    intro number rest flag h
    rw [scanNumber.eq_def] at h
    simp only [h1, h2, Bool.false_eq_true, reduceIte, if_true, if_false] at h
    obtain ⟨t, ht⟩ := ih _ _ _ h
    exact ⟨'.' :: t, by simpa using ht⟩
  | case5 acc hasDec c cs h1 h2 h3 =>
    intro number rest flag h
    rw [scanNumber.eq_def] at h
    simp only [h1, h2, h3, Bool.false_eq_true, reduceIte, if_true, if_false,
      reduceCtorEq] at h
  | case6 acc isSci hasDec c h1 h2 h3 h4 c2 cs2 h5 ih =>
    intro number rest flag h
    rw [scanNumber.eq_def] at h
    simp only [h1, h2, h3, h4, h5, Bool.false_eq_true, reduceIte, if_true,
      if_false] at h
    obtain ⟨t, ht⟩ := ih _ _ _ h
    exact ⟨c :: c2 :: t, by simpa using ht⟩
  | case7 acc isSci hasDec c h1 h2 h3 h4 c2 cs2 h5 ih =>
    intro number rest flag h
    rw [scanNumber.eq_def] at h
    simp only [h1, h2, h3, h4, h5, Bool.false_eq_true, reduceIte, if_true,
      if_false] at h
    obtain ⟨t, ht⟩ := ih _ _ _ h
    exact ⟨c :: t, by simpa using ht⟩
  | case8 acc isSci hasDec c h1 h2 h3 h4 ih =>
    intro number rest flag h
    rw [scanNumber.eq_def] at h
    simp only [h1, h2, h3, h4, Bool.false_eq_true, reduceIte, if_true,
      if_false] at h
    obtain ⟨t, ht⟩ := ih _ _ _ h
    exact ⟨c :: t, by simpa using ht⟩
  | case9 acc isSci hasDec c cs h1 h2 h3 h4 =>
    intro number rest flag h
    rw [scanNumber.eq_def] at h
    simp only [h1, h2, h3, h4, Bool.false_eq_true, reduceIte, if_true, if_false,
      Except.ok.injEq, Prod.mk.injEq] at h
    exact ⟨[], by simp [← h.1]⟩
  | case10 acc isSci hasDec c cs h1 h2 h3 h4 =>
    intro number rest flag h
    rw [scanNumber.eq_def] at h
    simp only [h1, h2, h3, h4, Bool.false_eq_true, reduceIte, if_true, if_false,
      reduceCtorEq] at h

/-- Every error `parse_scientific_notation` can raise is `InvalidNumber`. -/
theorem parseScientific_error_shape (number : List Char) (e : MathError)
    (h : parseScientific number = .error e) : ∃ s, e = .invalidNumber s := by
  unfold parseScientific at h
  split at h
  · split at h
    · exact ⟨_, (Except.error.inj h).symm⟩
    · split at h
      · exact ⟨_, (Except.error.inj h).symm⟩
      · exact absurd h (by simp)
  · exact ⟨_, (Except.error.inj h).symm⟩

/-- Errors of `tokenize_number` when entered on a digit or `'.'` (the
only way `next_token` enters it): the "Empty number" branch is dead
because the first character is always accumulated. -/
theorem tokenizeNumber_entry_error_shape (c : Char) (cs : List Char)
    (hc : c.isDigit = true ∨ c = '.') (e : MathError)
    (h : tokenizeNumber (c :: cs) = .error e) :
    (∃ s, e = .invalidNumber s) ∨
    e = .invalidExpression "Multiple decimal points in number" ∨
    e = .invalidExpression "Multiple scientific notation in number" := by
  unfold tokenizeNumber at h
  cases hs : scanNumber [] false false (c :: cs) with
  | error e' =>
    rw [hs] at h
    have he := Except.error.inj h
    subst he
    rcases scanNumber_error_shape [] false false (c :: cs) _ hs with h1 | h1 | h1
    · exact Or.inr (Or.inl h1)
    · exact Or.inr (Or.inr h1)
    · exact Or.inl h1
  | ok res =>
    obtain ⟨number, rest0, flag⟩ := res
    rw [hs] at h
    have hne : number ≠ [] := by
      rw [scanNumber.eq_def] at hs
      rcases hc with hdig | hdot
      · simp only [hdig, if_pos, List.nil_append] at hs
        obtain ⟨t, ht⟩ := scanNumber_acc_extends _ _ _ _ _ _ _ hs
        simp [ht]
      · subst hdot
        simp only [show ('.' : Char).isDigit = false from rfl, Bool.false_eq_true,
          reduceIte, List.nil_append] at hs
        obtain ⟨t, ht⟩ := scanNumber_acc_extends _ _ _ _ _ _ _ hs
        simp [ht]
    simp only [hne, reduceIte, if_false] at h
    split at h
    · cases hps : parseScientific number with
      | error e' =>
        rw [hps] at h
        have he := Except.error.inj h
        subst he
        exact Or.inl (parseScientific_error_shape number _ hps)
      | ok t => rw [hps] at h; exact absurd h (by simp)
    · cases hpf : parseF64 number with
      | none =>
        rw [hpf] at h
        exact Or.inl ⟨_, (Except.error.inj h).symm⟩
      | some v => rw [hpf] at h; exact absurd h (by simp)

/-- Every error `next_token` can raise. -/
theorem nextToken_error_shape (cs : List Char) (e : MathError)
    (h : nextToken cs = .error e) :
    (∃ s, e = .invalidNumber s) ∨
    e = .invalidExpression "Multiple decimal points in number" ∨
    e = .invalidExpression "Multiple scientific notation in number" ∨
    ∃ c : Char, e = .invalidExpression ("Unexpected character: " ++ String.mk [c]) := by
  unfold nextToken at h
  cases hsw : skipWs cs with
  | nil => rw [hsw] at h; exact absurd h (by simp)
  | cons c cs' =>
    rw [hsw] at h
    simp only at h
    split at h
    · rename_i hc
      cases hn : tokenizeNumber (c :: cs') with
      | error e' =>
        rw [hn] at h
        have he := Except.error.inj h
        subst he
        have hc' : c.isDigit = true ∨ c = '.' := by
          rcases Bool.or_eq_true_iff.mp hc with h1 | h1
          · exact Or.inl h1
          · exact Or.inr (by simpa using h1)
        rcases tokenizeNumber_entry_error_shape c cs' hc' _ hn with h1 | h1 | h1
        · exact Or.inl h1
        · exact Or.inr (Or.inl h1)
        · exact Or.inr (Or.inr (Or.inl h1))
      | ok p => rw [hn] at h; exact absurd h (by simp)
    · split at h
      · exact absurd h (by simp)
      · split at h
        · exact absurd h (by simp)
        · split at h
          · exact absurd h (by simp)
          · split at h
            · exact absurd h (by simp)
            · split at h
              · exact absurd h (by simp)
              · split at h
                · exact absurd h (by simp)
                · split at h
                  · exact absurd h (by simp)
                  · exact Or.inr (Or.inr (Or.inr ⟨c, (Except.error.inj h).symm⟩))

/-- Every tokenizer error is raised by some `next_token` call. -/
theorem tokenize_error_from_nextToken :
    ∀ (cs : List Char) (e : MathError), tokenize cs = .error e →
      ∃ cs', nextToken cs' = .error e := by
  suffices H : ∀ (n : Nat) (cs : List Char), cs.length ≤ n → ∀ e,
      tokenize cs = .error e → ∃ cs', nextToken cs' = .error e by
    exact fun cs e h => H cs.length cs le_rfl e h
  intro n
  induction n with
  | zero =>
    intro cs hlen e h
    rw [tokenize_eq] at h
    cases hnt : nextToken cs with
    | error e' =>
      rw [hnt] at h
      simp only at h
      have he := Except.error.inj h
      exact ⟨cs, by rw [hnt, he]⟩
    | ok o =>
      rw [hnt] at h
      cases o with
      | none => exact absurd h (by simp)
      | some p =>
        obtain ⟨t, rest⟩ := p
        have := nextToken_consumes cs t rest hnt
        omega
  | succ n ih =>
    intro cs hlen e h
    rw [tokenize_eq] at h
    cases hnt : nextToken cs with
    | error e' =>
      rw [hnt] at h
      simp only at h
      have he := Except.error.inj h
      exact ⟨cs, by rw [hnt, he]⟩
    | ok o =>
      rw [hnt] at h
      cases o with
      | none => exact absurd h (by simp)
      | some p =>
        obtain ⟨t, rest⟩ := p
        have hcons := nextToken_consumes cs t rest hnt
        simp only at h
        cases hrest : tokenize rest with
        | error e' =>
          rw [hrest] at h
          have he := Except.error.inj h
          subst he
          exact ih rest (by omega) _ hrest
        | ok ts => rw [hrest] at h; exact absurd h (by simp)

/-- Every error the parser can raise. -/
theorem parserF_error_shape (fuel : Nat) :
    ∀ r e, parserF fuel r = some (.error e) →
      (∃ t, e = .unexpectedToken t) ∨
      e = .invalidExpression "Unexpected end of input" ∨
      e = .invalidExpression "Expected ')'" := by
  induction fuel with
  | zero => intro r e h; exact absurd h (by simp [parserF])
  | succ fuel ih =>
    intro r e h
    rcases r with ts | ⟨minPrec, ts⟩ | ⟨minPrec, lhs, ts⟩
    · rcases ts with _ | ⟨t, rest0⟩
      · rw [parserF] at h
        exact Or.inr (Or.inl (Except.error.inj (Option.some.inj h)).symm)
      · rcases t with n | op | _ | _ | ⟨b, ex⟩
        · simp [parserF] at h
        · rcases op with _ | _ | _ | _ | _
          case subtract =>
            rw [parserF] at h
            cases hrec : parserF fuel (.prim rest0) with
            | none => rw [hrec] at h; exact absurd h (by simp)
            | some res' =>
              rw [hrec] at h
              cases res' with
              | error err =>
                have he := Except.error.inj (Option.some.inj h)
                subst he
                exact ih (.prim rest0) _ hrec
              | ok p =>
                obtain ⟨e0, rest1⟩ := p
                exact absurd h (by simp)
          all_goals
            (rw [parserF.eq_def] at h
             simp only [Option.some.injEq, Except.error.injEq] at h
             exact Or.inl ⟨_, h.symm⟩)
        · rw [parserF] at h
          cases hrec : parserF fuel (.expr 0 rest0) with
          | none => rw [hrec] at h; exact absurd h (by simp)
          | some res' =>
            rw [hrec] at h
            cases res' with
            | error err =>
              have he := Except.error.inj (Option.some.inj h)
              subst he
              exact ih (.expr 0 rest0) _ hrec
            | ok p =>
              obtain ⟨e0, rest1⟩ := p
              simp only at h
              rcases rest1 with _ | ⟨t1, rest2⟩
              · exact Or.inr (Or.inr (Except.error.inj (Option.some.inj h)).symm)
              · rcases t1 with _ | _ | _ | _ | _
                case rparen => exact absurd h (by simp)
                all_goals
                  (simp only [Option.some.injEq, Except.error.injEq] at h
                   exact Or.inr (Or.inr h.symm))
        · rw [parserF.eq_def] at h
          simp only [Option.some.injEq, Except.error.injEq] at h
          exact Or.inl ⟨_, h.symm⟩
        · simp [parserF] at h
    · rw [parserF] at h
      cases hrec : parserF fuel (.prim ts) with
      | none => rw [hrec] at h; exact absurd h (by simp)
      | some res' =>
        rw [hrec] at h
        cases res' with
        | error err =>
          have he := Except.error.inj (Option.some.inj h)
          subst he
          exact ih (.prim ts) _ hrec
        | ok p =>
          obtain ⟨lhs, rest1⟩ := p
          simp only at h
          exact ih (.loop minPrec lhs rest1) _ h
    · rcases ts with _ | ⟨t, rest0⟩
      · simp [parserF] at h
      · rcases t with n | op | _ | _ | ⟨b, ex⟩
        · rw [parserF.eq_def] at h
          simp only [Option.some.injEq, Except.error.injEq] at h
          exact Or.inl ⟨_, h.symm⟩
        · rw [parserF] at h
          by_cases hp : op.precedence < minPrec
          · rw [if_pos hp] at h; exact absurd h (by simp)
          · rw [if_neg hp] at h
            cases hrec : parserF fuel (.expr (op.precedence + 1) rest0) with
            | none => rw [hrec] at h; exact absurd h (by simp)
            | some res' =>
              rw [hrec] at h
              cases res' with
              | error err =>
                have he := Except.error.inj (Option.some.inj h)
                subst he
                exact ih (.expr (op.precedence + 1) rest0) _ hrec
              | ok p =>
                obtain ⟨rhs, rest1⟩ := p
                simp only at h
                exact ih (.loop minPrec (.binOp op lhs rhs) rest1) _ h
        · rw [parserF.eq_def] at h
          simp only [Option.some.injEq, Except.error.injEq] at h
          exact Or.inl ⟨_, h.symm⟩
        · rw [parserF] at h; exact absurd h (by simp)
        · rw [parserF.eq_def] at h
          simp only [Option.some.injEq, Except.error.injEq] at h
          exact Or.inl ⟨_, h.symm⟩

/-- Every error `Parser::parse` can raise. -/
theorem parse_error_shape (ts : List Token) (e : MathError)
    (h : parse ts = .error e) :
    (∃ t, e = .unexpectedToken t) ∨
    e = .invalidExpression "Unexpected end of input" ∨
    e = .invalidExpression "Expected ')'" := by
  unfold parse at h
  cases hpe : parseExpression 0 ts with
  | error e' =>
    rw [hpe] at h
    have he := Except.error.inj h
    subst he
    have h1 : parserF (PReq.bound (.expr 0 ts) + 1) (.expr 0 ts) =
        some (parseExpression 0 ts) := (Option.some_get _).symm
    rw [hpe] at h1
    exact parserF_error_shape _ (.expr 0 ts) _ h1
  | ok p => obtain ⟨e0, rest⟩ := p; rw [hpe] at h; exact absurd h (by simp)

/-- Every error the evaluator can raise is `DivisionByZero`. -/
theorem evaluate_error_shape :
    ∀ (ex : Expr) (e : MathError), evaluate ex = .error e → e = .divisionByZero := by
  intro ex
  induction ex with
  | literal v => intro e h; exact absurd h (by simp [evaluate])
  | scientific b exp => intro e h; exact absurd h (by simp [evaluate])
  | unaryMinus x ih =>
    intro e h
    rw [evaluate] at h
    cases hx : evaluate x with
    | error e' =>
      rw [hx] at h
      have he := Except.error.inj h
      subst he
      exact ih _ hx
    | ok v => rw [hx] at h; exact absurd h (by simp)
  | binOp op l r ihl ihr =>
    intro e h
    rw [evaluate] at h
    cases hl : evaluate l with
    | error e' =>
      rw [hl] at h
      have he := Except.error.inj h
      subst he
      exact ihl _ hl
    | ok a =>
      rw [hl] at h
      simp only at h
      cases hr : evaluate r with
      | error e' =>
        rw [hr] at h
        have he := Except.error.inj h
        subst he
        exact ihr _ hr
      | ok b =>
        rw [hr] at h
        simp only at h
        rcases op with _ | _ | _ | _ | _
        · exact absurd h (by simp)
        · exact absurd h (by simp)
        · exact absurd h (by simp)
        · simp only at h
          split at h
          · exact (Except.error.inj h).symm
          · exact absurd h (by simp)
        · exact absurd h (by simp)

/-- Whether a result is the `UnmatchedParenthesis` error. -/
def isUnmatchedErr {α : Type} : Except MathError α → Bool
  | .error .unmatchedParenthesis => true
  | _ => false

/-- Whether a result is the `InvalidExpression("Empty number")` error. -/
def isEmptyNumberErr {α : Type} : Except MathError α → Bool
  | .error (.invalidExpression s) => s = "Empty number"
  | _ => false

theorem unexpected_char_msg_ne (c : Char) (m : String) (hm : m.length ≠ 23) :
    ("Unexpected character: " ++ String.mk [c]) ≠ m := by
  intro h
  have hlen := congrArg String.length h
  rw [String.length_append] at hlen
  have h1 : ("Unexpected character: " : String).length = 22 := by decide
  have h2 : (String.mk [c]).length = 1 := rfl
  omega

/-- C8: no stage ever raises `UnmatchedParenthesis`: the tokenizer, the
parser and the evaluator only fail with the other four kinds, and a
missing closing parenthesis is reported as
`InvalidExpression("Expected ')'")`. -/
theorem c8_unmatched_parenthesis_unused :
    (∀ cs : List Char, isUnmatchedErr (tokenize cs) = false) ∧
    (∀ ts : List Token, isUnmatchedErr (parse ts) = false) ∧
    (∀ ex : Expr, isUnmatchedErr (evaluate ex) = false) ∧
    parseString "(1".toList = .error (.invalidExpression "Expected ')'") ∧
    parseString "1 + 2 * (3 - 4".toList =
      .error (.invalidExpression "Expected ')'") := by
  refine ⟨?_, ?_, ?_, by with_unfolding_all rfl, by with_unfolding_all rfl⟩
  · intro cs
    cases hr : tokenize cs with
    | ok ts => rfl
    | error e =>
      obtain ⟨cs', hcs'⟩ := tokenize_error_from_nextToken cs e hr
      rcases nextToken_error_shape cs' e hcs' with ⟨s, rfl⟩ | rfl | rfl | ⟨c, rfl⟩ <;>
        rfl
  · intro ts
    cases hr : parse ts with
    | ok e => rfl
    | error e =>
      rcases parse_error_shape ts e hr with ⟨t, rfl⟩ | rfl | rfl <;> rfl
  · intro ex
    cases hr : evaluate ex with
    | ok v => rfl
    | error e =>
      have := evaluate_error_shape ex e hr
      subst this
      rfl

/-- C9: the lexer's "Empty number" branch is unreachable: number
scanning is entered only on a digit or `'.'`, whose first character is
always accumulated, so `tokenize` never returns
`InvalidExpression("Empty number")`. -/
theorem c9_empty_number_unreachable :
    ∀ cs : List Char, isEmptyNumberErr (tokenize cs) = false := by
  intro cs
  cases hr : tokenize cs with
  | ok ts => rfl
  | error e =>
    obtain ⟨cs', hcs'⟩ := tokenize_error_from_nextToken cs e hr
    rcases nextToken_error_shape cs' e hcs' with ⟨s, rfl⟩ | rfl | rfl | ⟨c, rfl⟩
    · rfl
    · simp [isEmptyNumberErr]
    · simp [isEmptyNumberErr]
    · simp only [isEmptyNumberErr]
      rw [decide_eq_false]
      exact unexpected_char_msg_ne c "Empty number" (by decide)

/-- `need_parens_left` in the `Display` impl for `Expr`
(`src/token/mod.rs`): parenthesize a left child only when its top-level
operator binds strictly less tightly than the parent. -/
def needParensLeft (lhs : Expr) (op : Operator) : Bool :=
  match lhs with
  | .binOp innerOp _ _ => innerOp.precedence < op.precedence
  | _ => false

/-- `need_parens_right` in the `Display` impl for `Expr`: parenthesize a
right child when its top-level operator binds no more tightly than the
parent. -/
def needParensRight (rhs : Expr) (op : Operator) : Bool :=
  match rhs with
  | .binOp innerOp _ _ => innerOp.precedence ≤ op.precedence
  | _ => false

/-- The token sequence of the rendered form of an expression (the
`Display` impl for `Expr`, read at the token level). -/
def tokensOf : Expr → List Token
  | .literal v => [.number v]
  | .scientific base exponent => [.scientific base exponent]
  | .unaryMinus x => .operator .subtract :: .lparen :: (tokensOf x ++ [.rparen])
  | .binOp op l r =>
    (if needParensLeft l op then .lparen :: (tokensOf l ++ [.rparen]) else tokensOf l)
      ++ .operator op ::
        (if needParensRight r op then .lparen :: (tokensOf r ++ [.rparen]) else tokensOf r)

/-- Precedence level of an expression's top node; atoms bind tighter
than every operator. -/
def elevel : Expr → Nat
  | .binOp op _ _ => op.precedence
  | _ => 4

theorem one_le_precedence (op : Operator) : 1 ≤ op.precedence := by
  cases op <;> simp [Operator.precedence]

theorem one_le_elevel (e : Expr) : 1 ≤ elevel e := by
  cases e <;> simp [elevel, one_le_precedence]

/-- The continuation tokens after a rendered expression never start with
an operator binding at least as tightly as `n`. -/
def HeadOk (n : Nat) : List Token → Prop
  | .operator op :: _ => op.precedence < n
  | _ => True

theorem HeadOk.mono {m n : Nat} (h : m ≤ n) {w : List Token} (hw : HeadOk m w) :
    HeadOk n w := by
  cases w with
  | nil => trivial
  | cons t w' =>
    cases t <;> simp only [HeadOk] at hw ⊢
    omega

/-- What the operator loop does on a token list it cannot consume from:
stop, or report the head token as unexpected. -/
def stopResult (lhs : Expr) (w : List Token) : Except MathError (Expr × List Token) :=
  match w with
  | .number n :: _ => .error (.unexpectedToken (.number n))
  | .lparen :: _ => .error (.unexpectedToken .lparen)
  | .scientific b ex :: _ => .error (.unexpectedToken (.scientific b ex))
  | _ => .ok (lhs, w)

theorem parseLoop_headStop (minPrec : Nat) (lhs : Expr) (w : List Token)
    (hw : HeadOk minPrec w) : parseLoop minPrec lhs w = stopResult lhs w := by
  rw [parseLoop_eq]
  cases w with
  | nil => rfl
  | cons t w' =>
    cases t with
    | number n => rfl
    | operator op =>
      simp only [HeadOk] at hw
      simp only [stopResult, if_pos hw]
    | lparen => rfl
    | rparen => rfl
    | scientific b ex => rfl

/-- Core round-trip lemma: parsing the rendered tokens of `e`, at any
minimum precedence at most `e`'s level and followed by any continuation
that does not begin with an operator binding tighter than `e`'s level,
rebuilds exactly `e` and hands the continuation to the operator loop. -/
theorem parseExpression_tokensOf :
    ∀ (e : Expr) (minPrec : Nat) (w : List Token),
      minPrec ≤ elevel e → HeadOk (elevel e + 1) w →
      parseExpression minPrec (tokensOf e ++ w) = parseLoop minPrec e w := by
  suffices H : ∀ (n : Nat) (e : Expr), sizeOf e ≤ n → ∀ (minPrec : Nat) (w : List Token),
      minPrec ≤ elevel e → HeadOk (elevel e + 1) w →
      parseExpression minPrec (tokensOf e ++ w) = parseLoop minPrec e w by
    exact fun e => H (sizeOf e) e le_rfl
  intro n
  induction n with
  | zero => intro e hs; cases e <;> simp at hs
  | succ n ih =>
    intro e hsize minPrec w hmin hw
    -- a parenthesized subexpression is consumed as one primary
    have primGroup : ∀ (c : Expr), sizeOf c ≤ n → ∀ w' : List Token,
        parsePrimary (.lparen :: (tokensOf c ++ .rparen :: w')) = .ok (c, w') := by
      intro c hc w'
      rw [parsePrimary_eq]
      simp only
      have hinner : parseExpression 0 (tokensOf c ++ .rparen :: w') =
          parseLoop 0 c (.rparen :: w') :=
        ih c hc 0 (.rparen :: w') (Nat.zero_le _) (by simp [HeadOk])
      rw [hinner, parseLoop_headStop 0 c (.rparen :: w') (by simp [HeadOk])]
      rfl
    cases e with
    | literal v =>
      rw [parseExpression_eq]
      simp only [tokensOf, List.cons_append, List.nil_append]
      rw [parsePrimary_eq]
    | scientific b ex =>
      rw [parseExpression_eq]
      simp only [tokensOf, List.cons_append, List.nil_append]
      rw [parsePrimary_eq]
    | unaryMinus x =>
      rw [parseExpression_eq]
      simp only [tokensOf, List.cons_append, List.append_assoc, List.nil_append]
      rw [parsePrimary_eq]
      simp only
      have hx : sizeOf x ≤ n := by
        have := Expr.unaryMinus.sizeOf_spec x
        omega
      rw [primGroup x hx w]
    | binOp op l r =>
      have hl : sizeOf l ≤ n := by
        have := Expr.binOp.sizeOf_spec op l r
        omega
      have hr : sizeOf r ≤ n := by
        have := Expr.binOp.sizeOf_spec op l r
        omega
      simp only [elevel] at hmin hw
      -- right-hand side of the top operator
      have hR : parseExpression (op.precedence + 1)
          ((if needParensRight r op then .lparen :: (tokensOf r ++ [.rparen])
            else tokensOf r) ++ w) =
          parseLoop (op.precedence + 1) r w := by
        by_cases hpr : needParensRight r op
        · rw [if_pos hpr]
          rw [parseExpression_eq]
          simp only [List.cons_append, List.append_assoc, List.nil_append]
          rw [primGroup r hr w]
        · rw [if_neg hpr]
          have hlev : op.precedence + 1 ≤ elevel r := by
            cases r with
            | binOp op' l' r' =>
              simp only [needParensRight, decide_eq_true_eq] at hpr
              simp only [elevel]
              omega
            | literal v =>
              simp only [elevel]
              have := Operator.precedence
              cases op <;> simp [Operator.precedence]
            | unaryMinus x' =>
              simp only [elevel]
              cases op <;> simp [Operator.precedence]
            | scientific b' ex' =>
              simp only [elevel]
              cases op <;> simp [Operator.precedence]
          exact ih r hr (op.precedence + 1) w hlev
            (hw.mono (by omega))
      -- left-hand side: parse down to the loop with `l` as accumulator
      have hL : parseExpression minPrec (tokensOf (.binOp op l r) ++ w) =
          parseLoop minPrec l (.operator op ::
            ((if needParensRight r op then .lparen :: (tokensOf r ++ [.rparen])
              else tokensOf r) ++ w)) := by
        by_cases hpl : needParensLeft l op
        · simp only [tokensOf, if_pos hpl]
          rw [parseExpression_eq]
          simp only [List.cons_append, List.append_assoc, List.cons_append,
            List.nil_append]
          rw [primGroup l hl _]
        · cases l with
          | literal v =>
            simp only [tokensOf, if_neg hpl]
            rw [parseExpression_eq]
            simp only [List.cons_append, List.nil_append]
            rw [parsePrimary_eq]
          | scientific b' ex' =>
            simp only [tokensOf, if_neg hpl]
            rw [parseExpression_eq]
            simp only [List.cons_append, List.nil_append]
            rw [parsePrimary_eq]
          | unaryMinus x =>
            simp only [tokensOf, if_neg hpl]
            rw [parseExpression_eq]
            simp only [List.cons_append, List.append_assoc, List.nil_append]
            rw [parsePrimary_eq]
            simp only
            have hx : sizeOf x ≤ n := by
              have h1 := Expr.unaryMinus.sizeOf_spec x
              have h2 := Expr.binOp.sizeOf_spec op (.unaryMinus x) r
              omega
            rw [primGroup x hx _]
          | binOp op' l' r' =>
            simp only [needParensLeft, decide_eq_true_eq] at hpl
            have hord : op.precedence ≤ op'.precedence := by omega
            have happ : tokensOf (.binOp op (.binOp op' l' r') r) ++ w =
                tokensOf (.binOp op' l' r') ++ (.operator op ::
                  ((if needParensRight r op then .lparen :: (tokensOf r ++ [.rparen])
                    else tokensOf r) ++ w)) := by
              conv_lhs => rw [tokensOf]
              rw [if_neg (by simp [needParensLeft]; omega)]
              simp [List.append_assoc]
            rw [happ]
            exact ih (.binOp op' l' r') hl minPrec _
              (by simpa [elevel] using Nat.le_trans hmin hord)
              (by simp [HeadOk, elevel]; omega)
      rw [hL, parseLoop_eq]
      simp only
      rw [if_neg (show ¬(op.precedence < minPrec) by omega)]
      rw [hR, parseLoop_headStop (op.precedence + 1) r w (hw.mono (by omega))]
      cases w with
      | nil => simp only [stopResult]
      | cons t w' =>
        cases t with
        | number n' =>
          simp only [stopResult]
          rw [parseLoop_headStop minPrec (.binOp op l r) (.number n' :: w')
            (by simp [HeadOk])]
          rfl
        | operator op2 => simp only [stopResult]
        | lparen =>
          simp only [stopResult]
          rw [parseLoop_headStop minPrec (.binOp op l r) (.lparen :: w')
            (by simp [HeadOk])]
          rfl
        | rparen => simp only [stopResult]
        | scientific b2 ex2 =>
          simp only [stopResult]
          rw [parseLoop_headStop minPrec (.binOp op l r) (.scientific b2 ex2 :: w')
            (by simp [HeadOk])]
          rfl

/-- Parsing the rendered token sequence of any expression rebuilds the
expression exactly. -/
theorem parse_tokensOf (e : Expr) : parse (tokensOf e) = .ok e := by
  unfold parse
  have h := parseExpression_tokensOf e 0 []
    (Nat.le_trans (Nat.zero_le 1) (one_le_elevel e)) (by simp [HeadOk])
  rw [List.append_nil] at h
  rw [h, parseLoop_headStop 0 e [] (by simp [HeadOk])]
  rfl

/-- Decimal digit characters of a natural number, most significant
first (Rust `{}` formatting of a non-negative integer). -/
def natToDigitChars (n : Nat) : List Char :=
  if n = 0 then ['0'] else (Nat.digits 10 n).reverse.map Nat.digitChar

/-- The smallest exponent `k ≤ d` with `d ∣ 10 ^ k`, when one exists:
the number of fractional digits needed to write a fraction with
denominator `d` as an exact decimal. -/
def decExp (d : Nat) : Option Nat :=
  (List.range (d + 1)).find? (fun k => decide (d ∣ 10 ^ k))

/-- A numeric value the tokenizer can produce: non-negative, with a
denominator dividing a power of ten (an exact finite decimal). -/
def ValidNum (q : ℚ) : Prop :=
  0 ≤ q ∧ (q.den : Nat) ∣ 10 ^ q.den

/-- An exponent value the tokenizer can produce: within `i32` range. -/
def ValidExp (i : Int) : Prop :=
  -(2 ^ 31) ≤ i ∧ i < 2 ^ 31

theorem digitChar_isDigit {d : Nat} (hd : d < 10) :
    (Nat.digitChar d).isDigit = true := by
  interval_cases d <;> decide

theorem digitChar_val {d : Nat} (hd : d < 10) :
    (Nat.digitChar d).toNat - '0'.toNat = d := by
  interval_cases d <;> decide

theorem natToDigitChars_all_digits (n : Nat) :
    ∀ c ∈ natToDigitChars n, c.isDigit = true := by
  intro c hc
  unfold natToDigitChars at hc
  split at hc
  · simp at hc
    subst hc
    decide
  · simp only [List.mem_map, List.mem_reverse] at hc
    obtain ⟨d, hd, rfl⟩ := hc
    exact digitChar_isDigit (Nat.digits_lt_base (by norm_num) hd)

theorem natToDigitChars_ne_nil (n : Nat) : natToDigitChars n ≠ [] := by
  unfold natToDigitChars
  split
  · simp
  · rename_i hn
    simp only [ne_eq, List.map_eq_nil_iff, List.reverse_eq_nil_iff]
    exact Nat.digits_ne_nil_iff_ne_zero.mpr hn

theorem digitsToNat_append (xs ys : List Char) :
    digitsToNat (xs ++ ys) =
      List.foldl (fun acc c => 10 * acc + (c.toNat - '0'.toNat)) (digitsToNat xs) ys := by
  unfold digitsToNat
  rw [List.foldl_append]

theorem digitsToNat_append_one (xs : List Char) (c : Char) :
    digitsToNat (xs ++ [c]) = 10 * digitsToNat xs + (c.toNat - '0'.toNat) := by
  rw [digitsToNat_append]
  rfl

theorem digitsToNat_rev_map (ds : List Nat) (hds : ∀ d ∈ ds, d < 10) :
    digitsToNat (ds.reverse.map Nat.digitChar) = Nat.ofDigits 10 ds := by
  induction ds with
  | nil => rfl
  | cons d ds ih =>
    rw [List.reverse_cons, List.map_append]
    simp only [List.map_cons, List.map_nil]
    rw [digitsToNat_append_one]
    rw [ih (fun x hx => hds x (List.mem_cons_of_mem d hx))]
    rw [Nat.ofDigits_cons]
    rw [digitChar_val (hds d (List.mem_cons_self d ds))]
    omega

theorem digitsToNat_natToDigitChars (n : Nat) :
    digitsToNat (natToDigitChars n) = n := by
  unfold natToDigitChars
  split
  · rename_i hn; subst hn; decide
  · rw [digitsToNat_rev_map _ (fun d hd => Nat.digits_lt_base (by norm_num) hd)]
    exact Nat.ofDigits_digits 10 n

theorem digitsToNat_replicate_zero (j : Nat) (s : List Char) :
    digitsToNat (List.replicate j '0' ++ s) = digitsToNat s := by
  induction j with
  | zero => rfl
  | succ j ih =>
    rw [List.replicate_succ, List.cons_append]
    show digitsToNat (List.replicate j '0' ++ s) = _
    exact ih

theorem natToDigitChars_length_le {m k : Nat} (hm : m < 10 ^ k) (hk : 1 ≤ k) :
    (natToDigitChars m).length ≤ k := by
  unfold natToDigitChars
  split
  · simpa using hk
  · rename_i hm0
    rw [List.length_map, List.length_reverse]
    rw [Nat.digits_len 10 m (by norm_num) hm0]
    have := Nat.log_lt_of_lt_pow hm0 hm
    omega

/-- The decimal rendering of a rational with a power-of-ten denominator
(Rust `{}` formatting of an `f64` holding an exact decimal): integer
digits, then a fractional part with exactly `decExp q.den` digits when
that exponent is positive. -/
def renderNum (q : ℚ) : List Char :=
  (if q < 0 then ['-'] else []) ++
    match decExp q.den with
    | none => ['0']
    | some 0 => natToDigitChars q.num.natAbs
    | some (k + 1) =>
      natToDigitChars (q.num.natAbs * 10 ^ (k + 1) / q.den / 10 ^ (k + 1)) ++
        '.' :: (List.replicate
            ((k + 1) -
              (natToDigitChars (q.num.natAbs * 10 ^ (k + 1) / q.den % 10 ^ (k + 1))).length)
            '0'
          ++ natToDigitChars (q.num.natAbs * 10 ^ (k + 1) / q.den % 10 ^ (k + 1)))

/-- Decimal rendering of an integer (Rust `{}` formatting of an `i32`). -/
def renderInt (i : Int) : List Char :=
  (if i < 0 then ['-'] else []) ++ natToDigitChars i.natAbs

theorem decExp_isSome_of_valid (q : ℚ) (h : ValidNum q) :
    ∃ k, decExp q.den = some k := by
  have : (decExp q.den).isSome = true := by
    unfold decExp
    rw [List.find?_isSome]
    exact ⟨q.den, by simp, by simpa using h.2⟩
  exact Option.isSome_iff_exists.mp this

theorem decExp_spec (d k : Nat) (h : decExp d = some k) : d ∣ 10 ^ k := by
  unfold decExp at h
  have := List.find?_some h
  simpa using this

theorem isDigit_ne_dot {c : Char} (h : c.isDigit = true) : c ≠ '.' := by
  intro hc
  subst hc
  exact absurd h (by decide)

theorem isDigit_ne_e {c : Char} (h : c.isDigit = true) : c ≠ 'e' ∧ c ≠ 'E' := by
  constructor <;> intro hc <;> subst hc <;> exact absurd h (by decide)

theorem takeWhile_digit_append (D1 : List Char) (x : Char) (D2 : List Char)
    (h1 : ∀ c ∈ D1, c.isDigit = true) (hx : x.isDigit = false) :
    (D1 ++ x :: D2).takeWhile Char.isDigit = D1 ∧
    (D1 ++ x :: D2).dropWhile Char.isDigit = x :: D2 := by
  induction D1 with
  | nil => simp [List.takeWhile, List.dropWhile, hx]
  | cons c cs ih =>
    have hc : c.isDigit = true := h1 c (List.mem_cons_self c cs)
    have := ih (fun c' hc' => h1 c' (List.mem_cons_of_mem c hc'))
    simp only [List.cons_append, List.takeWhile, List.dropWhile, hc, List.append_eq]
    exact ⟨by rw [this.1], this.2⟩

theorem takeWhile_digit_all (D : List Char) (h : ∀ c ∈ D, c.isDigit = true) :
    D.takeWhile Char.isDigit = D ∧ D.dropWhile Char.isDigit = [] := by
  induction D with
  | nil => simp
  | cons c cs ih =>
    have hc : c.isDigit = true := h c (List.mem_cons_self c cs)
    have := ih (fun c' hc' => h c' (List.mem_cons_of_mem c hc'))
    simp only [List.takeWhile, List.dropWhile, hc]
    exact ⟨by rw [this.1], this.2⟩

/-- Key cast fact: the numerator-scaled integer division used by
`renderNum` recovers the rational exactly when the denominator divides
the chosen power of ten. -/
theorem decimal_div_value (q : ℚ) (hq : 0 ≤ q) (K : Nat)
    (hdvd : (q.den : Nat) ∣ 10 ^ K) :
    ((q.num.natAbs * 10 ^ K / q.den : Nat) : ℚ) = q * (10 : ℚ) ^ K := by
  have hden0 : (q.den : ℚ) ≠ 0 := by
    exact_mod_cast q.den_nz
  have h1 : (q.num.natAbs * 10 ^ K) / q.den * q.den = q.num.natAbs * 10 ^ K :=
    Nat.div_mul_cancel (Dvd.dvd.mul_left hdvd _)
  have h2 : ((q.num.natAbs * 10 ^ K / q.den : Nat) : ℚ) * (q.den : ℚ) =
      (q.num.natAbs : ℚ) * (10 : ℚ) ^ K := by
    exact_mod_cast congrArg (fun n : Nat => (n : ℚ)) h1
  have h3 : (q.num.natAbs : ℚ) = (q.num : ℚ) := by
    rw [Int.cast_natAbs]
    exact congrArg (fun z : ℤ => (z : ℚ)) (abs_of_nonneg (Rat.num_nonneg.mpr hq))
  have h4 : (q.num : ℚ) = q * (q.den : ℚ) := by
    have h := Rat.num_div_den q
    rw [div_eq_iff hden0] at h
    exact h
  have h5 : ((q.num.natAbs * 10 ^ K / q.den : Nat) : ℚ) * (q.den : ℚ) =
      q * (10 : ℚ) ^ K * (q.den : ℚ) := by
    rw [h2, h3, h4]
    ring
  exact mul_right_cancel₀ hden0 h5

theorem parseF64_digit_list (D : List Char) (hD : ∀ c ∈ D, c.isDigit = true)
    (hne : D ≠ []) : parseF64 D = some ((digitsToNat D : Nat) : ℚ) := by
  unfold parseF64
  rw [if_pos]
  · have ht := takeWhile_digit_all D hD
    rw [ht.1, ht.2]
    simp [digitsToNat]
  · simp only [Bool.and_eq_true, List.all_eq_true, List.any_eq_true,
      decide_eq_true_eq]
    refine ⟨⟨fun c hc => by simp [hD c hc], ?_⟩, ?_⟩
    · have : '.' ∉ D := fun hc => isDigit_ne_dot (hD _ hc) rfl
      simp [List.count_eq_zero.mpr this]
    · obtain ⟨c, cs, rfl⟩ := List.exists_cons_of_ne_nil hne
      exact ⟨c, List.mem_cons_self c cs, hD c (List.mem_cons_self c cs)⟩

theorem parseF64_digit_dot_list (D1 D2 : List Char)
    (h1 : ∀ c ∈ D1, c.isDigit = true) (h2 : ∀ c ∈ D2, c.isDigit = true)
    (hne : D1 ≠ []) :
    parseF64 (D1 ++ '.' :: D2) =
      some ((digitsToNat D1 : Nat) + ((digitsToNat D2 : Nat) : ℚ) / (10 : ℚ) ^ D2.length) := by
  unfold parseF64
  rw [if_pos]
  · have ht := takeWhile_digit_append D1 '.' D2 h1 (by decide)
    rw [ht.1, ht.2]
    simp
  · simp only [Bool.and_eq_true, List.all_eq_true, List.any_eq_true,
      decide_eq_true_eq]
    refine ⟨⟨?_, ?_⟩, ?_⟩
    · intro c hc
      rcases List.mem_append.mp hc with hc | hc
      · simp [h1 c hc]
      · rcases List.mem_cons.mp hc with rfl | hc
        · simp
        · simp [h2 c hc]
    · have hd1 : '.' ∉ D1 := fun hc => isDigit_ne_dot (h1 _ hc) rfl
      have hd2 : '.' ∉ D2 := fun hc => isDigit_ne_dot (h2 _ hc) rfl
      rw [List.count_append, List.count_cons]
      simp [List.count_eq_zero.mpr hd1, List.count_eq_zero.mpr hd2]
    · obtain ⟨c, cs, rfl⟩ := List.exists_cons_of_ne_nil hne
      exact ⟨c, by simp, h1 c (List.mem_cons_self c cs)⟩

/-- The rendered decimal form of a valid numeric value is made of
digits, with at most one interior dot, and parses back to exactly that
value. -/
theorem renderNum_shape (q : ℚ) (h : ValidNum q) :
    ((∀ c ∈ renderNum q, c.isDigit = true) ∧ renderNum q ≠ [] ∧
      parseF64 (renderNum q) = some q) ∨
    (∃ D1 D2, renderNum q = D1 ++ '.' :: D2 ∧ D1 ≠ [] ∧
      (∀ c ∈ D1, c.isDigit = true) ∧ (∀ c ∈ D2, c.isDigit = true) ∧
      parseF64 (renderNum q) = some q) := by
  obtain ⟨k, hk⟩ := decExp_isSome_of_valid q h
  have hdvd := decExp_spec _ _ hk
  have hq0 : ¬ q < 0 := not_lt.mpr h.1
  unfold renderNum
  rw [hk, if_neg hq0]
  cases k with
  | zero =>
    left
    have hden1 : q.den = 1 := Nat.dvd_one.mp (by simpa using hdvd)
    have hval := decimal_div_value q h.1 0 hdvd
    simp only [pow_zero, mul_one, hden1, Nat.div_one] at hval
    refine ⟨by simpa using natToDigitChars_all_digits q.num.natAbs,
      by simpa using natToDigitChars_ne_nil q.num.natAbs, ?_⟩
    rw [List.nil_append]
    rw [parseF64_digit_list _ (natToDigitChars_all_digits _) (natToDigitChars_ne_nil _)]
    rw [digitsToNat_natToDigitChars]
    rw [hval]
  | succ k =>
    right
    set K := k + 1 with hK
    set m := q.num.natAbs * 10 ^ K / q.den with hm
    set len2 := (natToDigitChars (m % 10 ^ K)).length with hlen2
    refine ⟨natToDigitChars (m / 10 ^ K),
      List.replicate (K - len2) '0' ++ natToDigitChars (m % 10 ^ K),
      by simp, natToDigitChars_ne_nil _, natToDigitChars_all_digits _, ?_, ?_⟩
    · intro c hc
      rcases List.mem_append.mp hc with hc | hc
      · rw [List.eq_of_mem_replicate hc]; decide
      · exact natToDigitChars_all_digits _ c hc
    · rw [List.nil_append]
      rw [parseF64_digit_dot_list _ _ (natToDigitChars_all_digits _)
        (fun c hc => by
          rcases List.mem_append.mp hc with hc | hc
          · rw [List.eq_of_mem_replicate hc]; decide
          · exact natToDigitChars_all_digits _ c hc)
        (natToDigitChars_ne_nil _)]
    -- lengths and values of the two digit blocks
      have hmlt : m % 10 ^ K < 10 ^ K := Nat.mod_lt _ (by positivity)
      have hlen_le : len2 ≤ K := natToDigitChars_length_le hmlt (by omega)
      have hlen : (List.replicate (K - len2) '0' ++
          natToDigitChars (m % 10 ^ K)).length = K := by
        rw [List.length_append, List.length_replicate, ← hlen2]
        omega
      rw [hlen]
      rw [digitsToNat_replicate_zero, digitsToNat_natToDigitChars,
        digitsToNat_natToDigitChars]
      have hval := decimal_div_value q h.1 K hdvd
      have hsplit : (10 : ℚ) ^ K * ((m / 10 ^ K : Nat) : ℚ) + ((m % 10 ^ K : Nat) : ℚ)
          = ((m : Nat) : ℚ) := by
        exact_mod_cast Nat.div_add_mod m (10 ^ K)
      have hne10 : (10 : ℚ) ^ K ≠ 0 := by positivity
      have hmain : (((m / 10 ^ K : Nat) : ℚ) + ((m % 10 ^ K : Nat) : ℚ) / (10 : ℚ) ^ K)
          * (10 : ℚ) ^ K = q * (10 : ℚ) ^ K := by
        field_simp
        nlinarith [hsplit, hval]
      rw [mul_right_cancel₀ hne10 hmain]

theorem isDigit_ne_sign {c : Char} (h : c.isDigit = true) :
    c ≠ '+' ∧ c ≠ '-' := by
  constructor <;> intro hc <;> subst hc <;> exact absurd h (by decide)

/-- The rendered form of a valid exponent parses back to exactly that
value. -/
theorem parseI32_renderInt (i : Int) (h : ValidExp i) :
    parseI32 (renderInt i) = some i := by
  obtain ⟨hr1, hr2⟩ := h
  unfold renderInt
  by_cases hi : i < 0
  · rw [if_pos hi]
    simp only [List.cons_append, List.nil_append]
    rw [parseI32]
    simp only
    rw [if_pos (by
      simp only [Bool.and_eq_true, List.all_eq_true, decide_eq_true_eq, ne_eq]
      exact ⟨natToDigitChars_ne_nil _, natToDigitChars_all_digits _⟩)]
    simp only [digitsToNat_natToDigitChars]
    simp only [if_true, if_false]
    rw [if_pos (by constructor <;> omega)]
    simp only [Option.some.injEq]
    omega
  · rw [if_neg hi, List.nil_append]
    obtain ⟨c, cs, hcs⟩ := List.exists_cons_of_ne_nil (natToDigitChars_ne_nil i.natAbs)
    have hcd : c.isDigit = true := by
      have := natToDigitChars_all_digits i.natAbs
      rw [hcs] at this
      exact this c (List.mem_cons_self c cs)
    have hsign := isDigit_ne_sign hcd
    rw [hcs, parseI32.eq_def]
    split
    · rename_i ds2 heq
      exact absurd (List.head_eq_of_cons_eq heq) hsign.1
    · rename_i ds2 heq
      exact absurd (List.head_eq_of_cons_eq heq) hsign.2
    · simp only
      rw [if_pos (by
        simp only [Bool.and_eq_true, List.all_eq_true, decide_eq_true_eq, ne_eq]
        constructor
        · simp
        · intro x hx
          have := natToDigitChars_all_digits i.natAbs
          rw [hcs] at this
          exact this x hx)]
      rw [← hcs, digitsToNat_natToDigitChars]
      simp only [Bool.false_eq_true, if_false]
      rw [if_pos (by constructor <;> omega)]
      simp only [Option.some.injEq]
      omega

/-- The rendered text of an expression (the `Display` impl for `Expr`
in `src/token/mod.rs`, at the character level). -/
def renderChars : Expr → List Char
  | .literal v => renderNum v
  | .scientific base exponent => renderNum base ++ 'e' :: renderInt exponent
  | .unaryMinus x => '-' :: '(' :: (renderChars x ++ [')'])
  | .binOp op l r =>
    (if needParensLeft l op then '(' :: (renderChars l ++ [')']) else renderChars l)
      ++ ' ' :: op.symbol :: ' ' ::
        (if needParensRight r op then '(' :: (renderChars r ++ [')']) else renderChars r)

/-- A character list whose head (if any) terminates number scanning. -/
def Boundary : List Char → Prop
  | [] => True
  | c :: _ => c.isWhitespace = true ∨ isOpParen c = true

theorem boundary_char {c : Char} (h : c.isWhitespace = true ∨ isOpParen c = true) :
    c.isDigit = false ∧ ¬c = '.' ∧ ¬c = 'e' ∧ ¬c = 'E' := by
  rcases h with h | h
  · simp only [Char.isWhitespace, Bool.or_eq_true, decide_eq_true_eq] at h
    rcases h with ((rfl | rfl) | rfl) | rfl <;> exact ⟨by decide, by decide, by decide, by decide⟩
  · simp only [isOpParen, Bool.or_eq_true, decide_eq_true_eq] at h
    rcases h with ((((((rfl | rfl) | rfl) | rfl) | rfl) | rfl) | rfl) <;>
      exact ⟨by decide, by decide, by decide, by decide⟩

theorem isDigit_not_ws {c : Char} (h : c.isDigit = true) :
    c.isWhitespace = false := by
  by_cases hw : c.isWhitespace = true
  · have := (boundary_char (Or.inl hw)).1
    rw [h] at this
    exact absurd this (by simp)
  · simpa using hw

theorem scanNumber_digits (D : List Char) (hD : ∀ c ∈ D, c.isDigit = true) :
    ∀ (acc : List Char) (sci dec : Bool) (rest : List Char),
      scanNumber acc sci dec (D ++ rest) = scanNumber (acc ++ D) sci dec rest := by
  induction D with
  | nil => intro acc sci dec rest; simp
  | cons c cs ih =>
    intro acc sci dec rest
    have hc : c.isDigit = true := hD c (List.mem_cons_self c cs)
    rw [List.cons_append, scanNumber.eq_def]
    simp only [hc, if_pos]
    rw [ih (fun x hx => hD x (List.mem_cons_of_mem c hx))]
    simp

theorem scanNumber_boundary (acc : List Char) (sci dec : Bool)
    (rest : List Char) (h : Boundary rest) :
    scanNumber acc sci dec rest = .ok (acc, rest, sci) := by
  cases rest with
  | nil => rw [scanNumber.eq_def]
  | cons c cs =>
    have hb : c.isWhitespace = true ∨ isOpParen c = true := h
    obtain ⟨hd, hdot, he, hE⟩ := boundary_char hb
    rw [scanNumber.eq_def]
    simp only [hd, hdot, he, hE, Bool.false_eq_true, reduceIte, decide_eq_true_eq,
      Bool.or_eq_true, or_self, if_false]
    rw [if_pos (by simpa using hb)]

theorem splitOnE_no_e (Y : List Char) (h : ∀ c ∈ Y, c ≠ 'e') :
    splitOnE Y = [Y] := by
  induction Y with
  | nil => rfl
  | cons c cs ih =>
    rw [splitOnE]
    rw [if_neg (h c (List.mem_cons_self c cs))]
    rw [ih (fun x hx => h x (List.mem_cons_of_mem c hx))]

theorem splitOnE_append (X Y : List Char) (hX : ∀ c ∈ X, c ≠ 'e') :
    splitOnE (X ++ 'e' :: Y) = X :: splitOnE Y := by
  induction X with
  | nil =>
    rw [List.nil_append, splitOnE]
    simp
  | cons c cs ih =>
    rw [List.cons_append, splitOnE]
    rw [if_neg (hX c (List.mem_cons_self c cs))]
    rw [ih (fun x hx => hX x (List.mem_cons_of_mem c hx))]

/-- Scanning the rendered number text never sees a scan terminator or an
`e`, so the scanner state after it has the whole text accumulated. -/
theorem scanNumber_renderNum_to (q : ℚ) (hv : ValidNum q) (tail : List Char) :
    ∃ hd : Bool,
      scanNumber [] false false (renderNum q ++ tail) =
        scanNumber (renderNum q) false hd tail := by
  rcases renderNum_shape q hv with ⟨hdig, hne, _⟩ | ⟨D1, D2, heq, hne, h1, h2, _⟩
  · exact ⟨false, by rw [scanNumber_digits _ hdig, List.nil_append]⟩
  · refine ⟨true, ?_⟩
    rw [heq]
    rw [List.append_assoc, List.cons_append]
    rw [scanNumber_digits _ h1]
    rw [scanNumber.eq_def]
    simp only [show ('.' : Char).isDigit = false from rfl, Bool.false_eq_true,
      reduceIte, if_false, List.nil_append]
    rw [scanNumber_digits _ h2]
    simp [List.append_assoc]

theorem renderNum_head (q : ℚ) (hv : ValidNum q) :
    ∃ c cs, renderNum q = c :: cs ∧ c.isDigit = true := by
  rcases renderNum_shape q hv with ⟨hdig, hne, _⟩ | ⟨D1, D2, heq, hne, h1, _, _⟩
  · obtain ⟨c, cs, hcs⟩ := List.exists_cons_of_ne_nil hne
    exact ⟨c, cs, hcs, hdig c (hcs ▸ List.mem_cons_self c cs)⟩
  · obtain ⟨c, cs, hcs⟩ := List.exists_cons_of_ne_nil hne
    refine ⟨c, cs ++ '.' :: D2, ?_, h1 c (hcs ▸ List.mem_cons_self c cs)⟩
    rw [heq, hcs, List.cons_append]

theorem skipWs_not_ws {c : Char} (h : c.isWhitespace = false) (cs : List Char) :
    skipWs (c :: cs) = c :: cs := by
  rw [skipWs]
  simp [h]

theorem renderNum_parseF64 (q : ℚ) (hv : ValidNum q) :
    parseF64 (renderNum q) = some q := by
  rcases renderNum_shape q hv with ⟨_, _, h⟩ | ⟨_, _, _, _, _, _, h⟩ <;> exact h

theorem renderNum_no_e (q : ℚ) (hv : ValidNum q) :
    ∀ c ∈ renderNum q, c ≠ 'e' := by
  intro c hc
  rcases renderNum_shape q hv with ⟨hdig, _, _⟩ | ⟨D1, D2, heq, _, h1, h2, _⟩
  · exact (isDigit_ne_e (hdig c hc)).1
  · rw [heq] at hc
    rcases List.mem_append.mp hc with hc | hc
    · exact (isDigit_ne_e (h1 c hc)).1
    · rcases List.mem_cons.mp hc with rfl | hc
      · decide
      · exact (isDigit_ne_e (h2 c hc)).1

theorem renderInt_no_e (i : Int) : ∀ c ∈ renderInt i, c ≠ 'e' := by
  intro c hc
  unfold renderInt at hc
  rcases List.mem_append.mp hc with hc | hc
  · split at hc
    · rw [List.mem_singleton.mp hc]; decide
    · simp at hc
  · exact (isDigit_ne_e (natToDigitChars_all_digits _ c hc)).1

theorem renderNum_ne_nil (q : ℚ) (hv : ValidNum q) : renderNum q ≠ [] := by
  obtain ⟨c, cs, hcs, -⟩ := renderNum_head q hv
  simp [hcs]

theorem nextToken_renderNum (q : ℚ) (rest : List Char) (hv : ValidNum q)
    (hb : Boundary rest) :
    nextToken (renderNum q ++ rest) = .ok (some (.number q, rest)) := by
  obtain ⟨c, cs, hcs, hcd⟩ := renderNum_head q hv
  unfold nextToken
  rw [hcs, List.cons_append, skipWs_not_ws (isDigit_not_ws hcd)]
  simp only
  rw [if_pos (by simp [hcd])]
  rw [← List.cons_append, ← hcs]
  unfold tokenizeNumber
  obtain ⟨hd, hscan⟩ := scanNumber_renderNum_to q hv rest
  rw [hscan, scanNumber_boundary _ _ _ _ hb]
  simp only
  rw [if_neg (renderNum_ne_nil q hv)]
  rw [if_neg (by simp)]
  rw [renderNum_parseF64 q hv]

theorem scanNumber_renderSci (b : ℚ) (ex : Int) (rest : List Char)
    (hvb : ValidNum b) (hb : Boundary rest) :
    scanNumber [] false false ((renderNum b ++ 'e' :: renderInt ex) ++ rest) =
      .ok (renderNum b ++ 'e' :: renderInt ex, rest, true) := by
  rw [List.append_assoc, List.cons_append]
  obtain ⟨hd, hscan⟩ := scanNumber_renderNum_to b hvb ('e' :: (renderInt ex ++ rest))
  rw [hscan, scanNumber.eq_def]
  simp only [show ('e' : Char).isDigit = false from rfl, Bool.false_eq_true,
    reduceIte, if_false, decide_eq_true_eq]
  rw [if_neg (by decide)]
  rw [if_pos (by simp)]
  by_cases hneg : ex < 0
  · have hri : renderInt ex = '-' :: natToDigitChars ex.natAbs := by
      unfold renderInt
      rw [if_pos hneg, List.cons_append, List.nil_append]
    rw [hri, List.cons_append]
    simp only
    rw [if_pos (by simp)]
    rw [scanNumber_digits _ (natToDigitChars_all_digits _)]
    rw [scanNumber_boundary _ _ _ _ hb]
    simp [hri, List.append_assoc]
  · have hri : renderInt ex = natToDigitChars ex.natAbs := by
      unfold renderInt
      rw [if_neg hneg, List.nil_append]
    obtain ⟨c, cs, hcs⟩ := List.exists_cons_of_ne_nil (natToDigitChars_ne_nil ex.natAbs)
    have hcd : c.isDigit = true := by
      have := natToDigitChars_all_digits ex.natAbs
      rw [hcs] at this
      exact this c (List.mem_cons_self c cs)
    have hsign := isDigit_ne_sign hcd
    rw [hri, hcs, List.cons_append]
    simp only
    rw [if_neg (by simp [hsign.1, hsign.2])]
    rw [← List.cons_append, ← hcs]
    rw [scanNumber_digits _ (natToDigitChars_all_digits _)]
    rw [scanNumber_boundary _ _ _ _ hb]
    simp [hri, hcs, List.append_assoc]

theorem nextToken_renderSci (b : ℚ) (ex : Int) (rest : List Char)
    (hvb : ValidNum b) (hve : ValidExp ex) (hb : Boundary rest) :
    nextToken ((renderNum b ++ 'e' :: renderInt ex) ++ rest) =
      .ok (some (.scientific b ex, rest)) := by
  obtain ⟨c, cs, hcs, hcd⟩ := renderNum_head b hvb
  unfold nextToken
  rw [hcs, List.cons_append, List.cons_append,
    skipWs_not_ws (isDigit_not_ws hcd)]
  simp only
  rw [if_pos (by simp [hcd])]
  rw [← List.cons_append, ← List.cons_append, ← hcs]
  unfold tokenizeNumber
  rw [scanNumber_renderSci b ex rest hvb hb]
  simp only
  rw [if_neg (by simp [renderNum_ne_nil b hvb])]
  simp only [if_true]
  unfold parseScientific
  rw [splitOnE_append _ _ (renderNum_no_e b hvb)]
  rw [splitOnE_no_e _ (renderInt_no_e ex)]
  simp only
  rw [renderNum_parseF64 b hvb]
  rw [parseI32_renderInt ex hve]

/-- Prepend a token to a tokenization result. -/
def consTok (t : Token) : Except MathError (List Token) → Except MathError (List Token)
  | .error e => .error e
  | .ok ts => .ok (t :: ts)

/-- Prepend a token list to a tokenization result. -/
def appTok (ts : List Token) :
    Except MathError (List Token) → Except MathError (List Token)
  | .error e => .error e
  | .ok ts' => .ok (ts ++ ts')

theorem appTok_nil (r : Except MathError (List Token)) : appTok [] r = r := by
  cases r <;> rfl

theorem appTok_cons (t : Token) (ts : List Token) (r : Except MathError (List Token)) :
    appTok (t :: ts) r = consTok t (appTok ts r) := by
  cases r <;> rfl

theorem appTok_append (A B : List Token) (r : Except MathError (List Token)) :
    appTok (A ++ B) r = appTok A (appTok B r) := by
  cases r <;> simp [appTok]

theorem tokenize_cons (cs : List Char) (t : Token) (rest : List Char)
    (h : nextToken cs = .ok (some (t, rest))) :
    tokenize cs = consTok t (tokenize rest) := by
  rw [tokenize_eq, h]
  simp only
  cases tokenize rest <;> rfl

theorem nextToken_ws (c : Char) (hc : c.isWhitespace = true) (cs : List Char) :
    nextToken (c :: cs) = nextToken cs := by
  unfold nextToken
  rw [skipWs]
  simp [hc]

theorem tokenize_ws (c : Char) (hc : c.isWhitespace = true) (cs : List Char) :
    tokenize (c :: cs) = tokenize cs := by
  rw [tokenize_eq, nextToken_ws c hc cs, ← tokenize_eq]

theorem nextToken_op (op : Operator) (cs : List Char) :
    nextToken (op.symbol :: cs) = .ok (some (.operator op, cs)) := by
  cases op <;> rfl

theorem nextToken_lparen (cs : List Char) :
    nextToken ('(' :: cs) = .ok (some (.lparen, cs)) := rfl

theorem nextToken_rparen (cs : List Char) :
    nextToken (')' :: cs) = .ok (some (.rparen, cs)) := rfl

/-- Well-formed expressions: every numeric leaf is a value the tokenizer
can produce.  Every AST built by `parse` from `tokenize` output is
well-formed (`parse_wf` below). -/
def WFExpr : Expr → Prop
  | .literal v => ValidNum v
  | .scientific base exponent => ValidNum base ∧ ValidExp exponent
  | .unaryMinus x => WFExpr x
  | .binOp _ l r => WFExpr l ∧ WFExpr r

/-- Tokenizing the rendered text of a well-formed expression yields its
rendered token sequence, in front of whatever the remainder tokenizes
to. -/
theorem tokenize_renderChars :
    ∀ (e : Expr), WFExpr e → ∀ rest : List Char, Boundary rest →
      tokenize (renderChars e ++ rest) = appTok (tokensOf e) (tokenize rest) := by
  intro e
  induction e with
  | literal v =>
    intro hwf rest hb
    rw [renderChars]
    rw [tokenize_cons _ _ _ (nextToken_renderNum v rest hwf hb)]
    rw [tokensOf, appTok_cons, appTok_nil]
  | scientific b ex =>
    intro hwf rest hb
    rw [renderChars]
    rw [tokenize_cons _ _ _ (nextToken_renderSci b ex rest hwf.1 hwf.2 hb)]
    rw [tokensOf, appTok_cons, appTok_nil]
  | unaryMinus x ih =>
    intro hwf rest hb
    rw [renderChars, tokensOf]
    rw [List.cons_append, List.cons_append, List.append_assoc, List.singleton_append]
    rw [tokenize_cons _ _ _ (show nextToken ('-' :: ('(' :: (renderChars x ++ ')' :: rest))) =
      .ok (some (.operator .subtract, '(' :: (renderChars x ++ ')' :: rest))) from rfl)]
    rw [tokenize_cons _ _ _ (nextToken_lparen _)]
    rw [ih hwf (')' :: rest) (Or.inr (by decide))]
    rw [tokenize_cons _ _ _ (nextToken_rparen _)]
    rw [appTok_cons, appTok_cons, appTok_append, appTok_cons, appTok_nil]
  | binOp op l r ihl ihr =>
    intro hwf rest hb
    rw [renderChars, tokensOf]
    have hright : tokenize
        ((if needParensRight r op then '(' :: (renderChars r ++ [')'])
          else renderChars r) ++ rest) =
        appTok (if needParensRight r op then .lparen :: (tokensOf r ++ [.rparen])
          else tokensOf r) (tokenize rest) := by
      by_cases hpr : needParensRight r op
      · rw [if_pos hpr, if_pos hpr]
        rw [List.cons_append, List.append_assoc, List.singleton_append]
        rw [tokenize_cons _ _ _ (nextToken_lparen _)]
        rw [ihr hwf.2 (')' :: rest) (Or.inr (by decide))]
        rw [tokenize_cons _ _ _ (nextToken_rparen _)]
        rw [appTok_cons, appTok_append, appTok_cons, appTok_nil]
      · rw [if_neg hpr, if_neg hpr]
        exact ihr hwf.2 rest hb
    have hmid : tokenize (' ' :: op.symbol :: ' ' ::
        ((if needParensRight r op then '(' :: (renderChars r ++ [')'])
          else renderChars r) ++ rest)) =
        consTok (.operator op)
          (appTok (if needParensRight r op then .lparen :: (tokensOf r ++ [.rparen])
            else tokensOf r) (tokenize rest)) := by
      rw [tokenize_ws ' ' (by decide)]
      rw [tokenize_cons _ _ _ (nextToken_op op _)]
      rw [tokenize_ws ' ' (by decide)]
      rw [hright]
    have hleft : tokenize
        ((if needParensLeft l op then '(' :: (renderChars l ++ [')'])
          else renderChars l) ++ (' ' :: op.symbol :: ' ' ::
          ((if needParensRight r op then '(' :: (renderChars r ++ [')'])
            else renderChars r) ++ rest))) =
        appTok (if needParensLeft l op then .lparen :: (tokensOf l ++ [.rparen])
          else tokensOf l)
          (consTok (.operator op)
            (appTok (if needParensRight r op then .lparen :: (tokensOf r ++ [.rparen])
              else tokensOf r) (tokenize rest))) := by
      by_cases hpl : needParensLeft l op
      · rw [if_pos hpl, if_pos hpl]
        rw [List.cons_append, List.append_assoc, List.singleton_append]
        rw [tokenize_cons _ _ _ (nextToken_lparen _)]
        rw [ihl hwf.1 (')' :: (' ' :: op.symbol :: ' ' ::
          ((if needParensRight r op then '(' :: (renderChars r ++ [')'])
            else renderChars r) ++ rest))) (Or.inr (by decide))]
        rw [tokenize_cons _ _ _ (nextToken_rparen _)]
        rw [hmid]
        rw [appTok_cons, appTok_append, appTok_cons, appTok_nil]
      · rw [if_neg hpl, if_neg hpl]
        rw [ihl hwf.1 (' ' :: op.symbol :: ' ' ::
          ((if needParensRight r op then '(' :: (renderChars r ++ [')'])
            else renderChars r) ++ rest)) (Or.inl (by decide))]
        rw [hmid]
    rw [List.append_assoc, List.cons_append, List.cons_append, List.cons_append]
    rw [hleft]
    rw [appTok_append, appTok_cons]

/- ### Soundness of the tokenizer: every numeric token it produces is a
value the renderer can reproduce exactly. -/

theorem dvd_ten_pow_self {d L : Nat} (h : d ∣ 10 ^ L) : d ∣ 10 ^ d := by
  have h10 : (10 : Nat) = 2 * 5 := by norm_num
  rw [h10, Nat.mul_pow] at h
  obtain ⟨d1, d2, h1, h2, rfl⟩ := exists_dvd_and_dvd_of_dvd_mul h
  obtain ⟨a, -, rfl⟩ := (Nat.dvd_prime_pow Nat.prime_two).mp h1
  obtain ⟨b, -, rfl⟩ := (Nat.dvd_prime_pow (by norm_num)).mp h2
  have ha : a ≤ 2 ^ a * 5 ^ b := by
    have h1 : a < 2 ^ a := Nat.lt_two_pow a
    have h2 : 0 < 5 ^ b := pow_pos (by norm_num) b
    nlinarith
  have hb : b ≤ 2 ^ a * 5 ^ b := by
    have h1 : b < 5 ^ b := Nat.lt_pow_self (by norm_num) b
    have h2 : 0 < 2 ^ a := pow_pos (by norm_num) a
    nlinarith
  rw [h10, Nat.mul_pow]
  exact mul_dvd_mul (pow_dvd_pow 2 ha) (pow_dvd_pow 5 hb)

theorem parseF64_valid (s : List Char) (q : ℚ) (h : parseF64 s = some q) :
    ValidNum q := by
  rw [parseF64] at h
  split at h
  · simp only [Option.some.injEq] at h
    subst h
    constructor
    · positivity
    · set L := ((s.dropWhile Char.isDigit).drop 1).length with hL
      set A := digitsToNat (s.takeWhile Char.isDigit) with hA
      set B := digitsToNat ((s.dropWhile Char.isDigit).drop 1) with hB
      have hq : (A : ℚ) + (B : ℚ) / (10 : ℚ) ^ L =
          (((A : ℤ) * 10 ^ L + (B : ℤ) : ℤ) : ℚ) / (((10 : ℤ) ^ L : ℤ) : ℚ) := by
        have hne : ((10 : ℚ) ^ L) ≠ 0 := by positivity
        push_cast
        field_simp
      have hdvd : (((Rat.divInt ((A : ℤ) * 10 ^ L + (B : ℤ)) ((10 : ℤ) ^ L)).den : ℤ)) ∣
          (10 : ℤ) ^ L := Rat.den_dvd _ _
      rw [Rat.divInt_eq_div, ← hq] at hdvd
      have hdvd' : ((A : ℚ) + (B : ℚ) / (10 : ℚ) ^ L).den ∣ 10 ^ L := by
        exact_mod_cast hdvd
      exact dvd_ten_pow_self hdvd'
  · exact absurd h (by simp)

theorem parseI32_valid (s : List Char) (v : Int) (h : parseI32 s = some v) :
    ValidExp v := by
  rw [parseI32.eq_def] at h
  simp only at h
  split at h <;>
  · simp only [Bool.false_eq_true, if_false, if_true] at h
    split at h
    · split at h
      · have hv := Option.some.inj h
        subst hv
        rename_i hrange
        exact hrange
      · exact absurd h (by simp)
    · exact absurd h (by simp)

/-- Numeric tokens carry values the renderer can reproduce; structural
tokens carry no value. -/
def ValidToken : Token → Prop
  | .number q => ValidNum q
  | .scientific b ex => ValidNum b ∧ ValidExp ex
  | _ => True

theorem parseScientific_valid (number : List Char) (t : Token)
    (h : parseScientific number = .ok t) : ValidToken t := by
  rw [parseScientific.eq_def] at h
  split at h
  · rename_i x p0 p1 heq
    cases hf : parseF64 p0 with
    | none => rw [hf] at h; exact absurd h (by simp)
    | some base =>
      rw [hf] at h
      simp only at h
      cases hi : parseI32 p1 with
      | none => rw [hi] at h; exact absurd h (by simp)
      | some exponent =>
        rw [hi] at h
        simp only [Except.ok.injEq] at h
        subst h
        exact ⟨parseF64_valid _ _ hf, parseI32_valid _ _ hi⟩
  · exact absurd h (by simp)

theorem tokenizeNumber_valid (cs : List Char) (t : Token) (rest : List Char)
    (h : tokenizeNumber cs = .ok (t, rest)) : ValidToken t := by
  rw [tokenizeNumber.eq_def] at h
  cases hs : scanNumber [] false false cs with
  | error e => rw [hs] at h; exact absurd h (by simp)
  | ok p =>
    obtain ⟨number, rest', isSci⟩ := p
    rw [hs] at h
    simp only at h
    split at h
    · exact absurd h (by simp)
    · split at h
      · cases hps : parseScientific number with
        | error e => rw [hps] at h; exact absurd h (by simp)
        | ok t' =>
          rw [hps] at h
          simp only [Except.ok.injEq, Prod.mk.injEq] at h
          obtain ⟨rfl, -⟩ := h
          exact parseScientific_valid _ _ hps
      · cases hf : parseF64 number with
        | none => rw [hf] at h; exact absurd h (by simp)
        | some v =>
          rw [hf] at h
          simp only [Except.ok.injEq, Prod.mk.injEq] at h
          obtain ⟨rfl, -⟩ := h
          exact parseF64_valid _ _ hf

theorem nextToken_valid (cs : List Char) (t : Token) (rest : List Char)
    (h : nextToken cs = .ok (some (t, rest))) : ValidToken t := by
  rw [nextToken.eq_def] at h
  cases hsw : skipWs cs with
  | nil => rw [hsw] at h; exact absurd h (by simp)
  | cons c cs' =>
    rw [hsw] at h
    simp only at h
    split at h
    · cases htn : tokenizeNumber (c :: cs') with
      | error e => rw [htn] at h; exact absurd h (by simp)
      | ok p =>
        obtain ⟨t', rest'⟩ := p
        rw [htn] at h
        simp only [Except.ok.injEq, Option.some.injEq, Prod.mk.injEq] at h
        obtain ⟨rfl, -⟩ := h
        exact tokenizeNumber_valid _ _ _ htn
    · repeat'
        first
        | (simp only [Except.ok.injEq, Option.some.injEq, Prod.mk.injEq] at h
           obtain ⟨rfl, -⟩ := h
           trivial)
        | (exact absurd h (by simp))
        | split at h

theorem tokenizeAllF_valid (fuel : Nat) :
    ∀ cs ts, tokenizeAllF fuel cs = some (.ok ts) → ∀ t ∈ ts, ValidToken t := by
  induction fuel with
  | zero => intro cs ts h; exact absurd h (by simp [tokenizeAllF])
  | succ fuel ih =>
    intro cs ts h
    rw [tokenizeAllF] at h
    cases hnt : nextToken cs with
    | error e => rw [hnt] at h; exact absurd h (by simp)
    | ok o =>
      cases o with
      | none =>
        rw [hnt] at h
        simp only [Option.some.injEq, Except.ok.injEq] at h
        subst h
        intro t ht
        exact absurd ht (by simp)
      | some p =>
        obtain ⟨t0, rest⟩ := p
        rw [hnt] at h
        simp only at h
        cases hrec : tokenizeAllF fuel rest with
        | none => rw [hrec] at h; exact absurd h (by simp)
        | some r =>
          rw [hrec] at h
          cases r with
          | error e => exact absurd h (by simp)
          | ok ts' =>
            simp only [Option.some.injEq, Except.ok.injEq] at h
            subst h
            intro t ht
            rcases List.mem_cons.mp ht with rfl | ht'
            · exact nextToken_valid cs t rest hnt
            · exact ih rest ts' hrec t ht'

/-- Every token list `Tokenizer::tokenize` returns consists of valid
tokens. -/
theorem tokenize_valid (cs : List Char) (ts : List Token)
    (h : tokenize cs = .ok ts) : ∀ t ∈ ts, ValidToken t := by
  have h1 := tokenizeAllF_spec (cs.length + 1) cs (by omega)
  rw [h] at h1
  exact tokenizeAllF_valid _ cs ts h1

/- ### The parser preserves validity: parsing valid tokens yields
well-formed expressions. -/

/-- Precondition for a parser request: its tokens are valid, and (for
the operator loop) its current left-hand side is well-formed. -/
def PReq.valid : PReq → Prop
  | .prim ts => ∀ t ∈ ts, ValidToken t
  | .expr _ ts => ∀ t ∈ ts, ValidToken t
  | .loop _ lhs ts => WFExpr lhs ∧ ∀ t ∈ ts, ValidToken t

theorem parserF_wf (fuel : Nat) :
    ∀ r ex rest, parserF fuel r = some (.ok (ex, rest)) → r.valid →
      WFExpr ex ∧ ∀ t ∈ rest, ValidToken t := by
  induction fuel with
  | zero => intro r ex rest h _; exact absurd h (by simp [parserF])
  | succ fuel ih =>
    intro r ex rest h hv
    rcases r with ts | ⟨minPrec, ts⟩ | ⟨minPrec, lhs, ts⟩
    · rcases ts with _ | ⟨t, rest0⟩
      · simp [parserF] at h
      · rcases t with n | op | _ | _ | ⟨b, exp⟩
        · simp only [parserF, Option.some.injEq, Except.ok.injEq,
            Prod.mk.injEq] at h
          obtain ⟨rfl, rfl⟩ := h
          exact ⟨hv (.number n) (List.mem_cons_self _ _),
            fun t ht => hv t (List.mem_cons_of_mem _ ht)⟩
        · rcases op with _ | _ | _ | _ | _
          case subtract =>
            rw [parserF] at h
            cases hrec : parserF fuel (.prim rest0) with
            | none => rw [hrec] at h; exact absurd h (by simp)
            | some res' =>
              rw [hrec] at h
              cases res' with
              | error err => exact absurd h (by simp)
              | ok p =>
                obtain ⟨e0, rest1⟩ := p
                simp only [Option.some.injEq, Except.ok.injEq,
                  Prod.mk.injEq] at h
                obtain ⟨rfl, rfl⟩ := h
                exact ih (.prim rest0) e0 rest1 hrec
                  (fun t ht => hv t (List.mem_cons_of_mem _ ht))
          all_goals (rw [parserF.eq_def] at h; simp at h)
        · rw [parserF] at h
          cases hrec : parserF fuel (.expr 0 rest0) with
          | none => rw [hrec] at h; exact absurd h (by simp)
          | some res' =>
            rw [hrec] at h
            cases res' with
            | error err => exact absurd h (by simp)
            | ok p =>
              obtain ⟨e0, rest1⟩ := p
              simp only at h
              have hin := ih (.expr 0 rest0) e0 rest1 hrec
                (fun t ht => hv t (List.mem_cons_of_mem _ ht))
              rcases rest1 with _ | ⟨t1, rest2⟩
              · exact absurd h (by simp)
              · rcases t1 with _ | _ | _ | _ | _
                case rparen =>
                  simp only [Option.some.injEq, Except.ok.injEq,
                    Prod.mk.injEq] at h
                  obtain ⟨rfl, rfl⟩ := h
                  exact ⟨hin.1, fun t ht => hin.2 t (List.mem_cons_of_mem _ ht)⟩
                all_goals simp at h
        · rw [parserF.eq_def] at h; simp at h
        · simp only [parserF, Option.some.injEq, Except.ok.injEq,
            Prod.mk.injEq] at h
          obtain ⟨rfl, rfl⟩ := h
          exact ⟨hv (.scientific b exp) (List.mem_cons_self _ _),
            fun t ht => hv t (List.mem_cons_of_mem _ ht)⟩
    · rw [parserF] at h
      cases hrec : parserF fuel (.prim ts) with
      | none => rw [hrec] at h; exact absurd h (by simp)
      | some res' =>
        rw [hrec] at h
        cases res' with
        | error err => exact absurd h (by simp)
        | ok p =>
          obtain ⟨lhs, rest1⟩ := p
          simp only at h
          have hin := ih (.prim ts) lhs rest1 hrec hv
          exact ih (.loop minPrec lhs rest1) ex rest h hin
    · rcases ts with _ | ⟨t, rest0⟩
      · simp only [parserF, Option.some.injEq, Except.ok.injEq,
          Prod.mk.injEq] at h
        obtain ⟨rfl, rfl⟩ := h
        exact ⟨hv.1, by simp⟩
      · rcases t with n | op | _ | _ | ⟨b, exp⟩
        · rw [parserF.eq_def] at h; simp at h
        · rw [parserF] at h
          by_cases hp : op.precedence < minPrec
          · rw [if_pos hp] at h
            simp only [Option.some.injEq, Except.ok.injEq,
              Prod.mk.injEq] at h
            obtain ⟨rfl, rfl⟩ := h
            exact ⟨hv.1, hv.2⟩
          · rw [if_neg hp] at h
            cases hrec : parserF fuel (.expr (op.precedence + 1) rest0) with
            | none => rw [hrec] at h; exact absurd h (by simp)
            | some res' =>
              rw [hrec] at h
              cases res' with
              | error err => exact absurd h (by simp)
              | ok p =>
                obtain ⟨rhs, rest1⟩ := p
                simp only at h
                have hin := ih (.expr (op.precedence + 1) rest0) rhs rest1 hrec
                  (fun t ht => hv.2 t (List.mem_cons_of_mem _ ht))
                exact ih (.loop minPrec (.binOp op lhs rhs) rest1) ex rest h
                  ⟨⟨hv.1, hin.1⟩, hin.2⟩
        · rw [parserF.eq_def] at h; simp at h
        · simp only [parserF, Option.some.injEq, Except.ok.injEq,
            Prod.mk.injEq] at h
          obtain ⟨rfl, rfl⟩ := h
          exact ⟨hv.1, hv.2⟩
        · rw [parserF.eq_def] at h; simp at h

/-- `Parser::parse` applied to valid tokens builds a well-formed
expression. -/
theorem parse_wf (ts : List Token) (e : Expr)
    (hts : ∀ t ∈ ts, ValidToken t) (h : parse ts = .ok e) : WFExpr e := by
  unfold parse at h
  cases hpe : parseExpression 0 ts with
  | error e' => rw [hpe] at h; exact absurd h (by simp)
  | ok p =>
    obtain ⟨e0, rest⟩ := p
    rw [hpe] at h
    simp only [Except.ok.injEq] at h
    subst h
    have h1 : parserF (PReq.bound (.expr 0 ts) + 1) (.expr 0 ts) =
        some (parseExpression 0 ts) := (Option.some_get _).symm
    rw [hpe] at h1
    exact (parserF_wf _ (.expr 0 ts) e0 rest h1 hts).1

/-- **C6.** Render/reparse round trip: for every AST built by the parser
from tokenizer output, rendering it with the `Display` implementation
(which parenthesizes a left child exactly when its precedence is
strictly lower than the parent's, and a right child when it is lower or
equal) and then re-tokenizing and re-parsing the rendered text succeeds
and produces an AST that evaluates to the same value (in fact the
identical AST). -/
theorem c6_render_reparse (s : List Char) (ts : List Token) (e : Expr)
    (h1 : tokenize s = .ok ts) (h2 : parse ts = .ok e) :
    ∃ ts' e', tokenize (renderChars e) = .ok ts' ∧ parse ts' = .ok e' ∧
      evaluate e' = evaluate e := by
  have hwf : WFExpr e := parse_wf ts e (tokenize_valid s ts h1) h2
  refine ⟨tokensOf e, e, ?_, parse_tokensOf e, rfl⟩
  have h3 := tokenize_renderChars e hwf [] trivial
  rw [List.append_nil] at h3
  rw [h3]
  have h4 : tokenize [] = .ok [] := by with_unfolding_all rfl
  rw [h4, appTok, List.append_nil]

theorem c6_render_reparse_witness :
    ∃ ts' e', tokenize (renderChars (Expr.binOp .add (.literal 1) (.literal 2))) = .ok ts' ∧
      parse ts' = .ok e' ∧
      evaluate e' = evaluate (Expr.binOp .add (.literal 1) (.literal 2)) :=
  c6_render_reparse ('1' :: ' ' :: '+' :: ' ' :: '2' :: [])
    [.number 1, .operator .add, .number 2]
    (.binOp .add (.literal 1) (.literal 2))
    (by with_unfolding_all rfl) (by with_unfolding_all rfl)
